import Mathlib

/-!
Verification of the viner harvest pipeline (vine_full_harvest.go).

Strings are embedded as lists of characters (`Str`), JSON-shaped values as
the inductive `Json`, and the filesystem as a map from paths to file
contents.  Every definition is transcribed from the Go source in
src/vine_full_harvest.go (and, where a claim cites it, from
src/vine-harvester/vine_full_harvest.go).
-/

set_option linter.unusedVariables false
set_option linter.unreachableTactic false
set_option linter.unusedTactic false

abbrev Str := List Char

def sl (s : String) : Str := s.data

namespace Viner

/-- strings.Contains from the Go standard library: true when pat occurs
contiguously inside s. -/
def containsB (pat : Str) : Str → Bool
  | [] => pat.isEmpty
  | c :: rest => pat.isPrefixOf (c :: rest) || containsB pat rest

/-- Fuelled scan underlying `replaceAll`.  Each step consumes at least one
character, so fuel equal to the length of the string is always sufficient;
the fuel-exhausted branch is unreachable from `replaceAll`. -/
def replaceAllGo (pat rep : Str) : Nat → Str → Str
  | _, [] => []
  | 0, s => s
  | fuel + 1, c :: rest =>
    if h : pat ≠ [] ∧ pat.isPrefixOf (c :: rest) then
      rep ++ replaceAllGo pat rep fuel ((c :: rest).drop pat.length)
    else
      c :: replaceAllGo pat rep fuel rest

/-- strings.ReplaceAll from the Go standard library: replace every
non-overlapping occurrence of pat by rep, scanning left to right.  (For an
empty pattern this embedding returns s unchanged; the program only calls it
with non-empty literal patterns.) -/
def replaceAll (pat rep s : Str) : Str := replaceAllGo pat rep s.length s

/-- The guard substring checked by rewriteURLs before doing any replacement. -/
def hostGuard : Str := sl (".cdn.vine.co")

/-- Legacy host pattern 1: http://v.cdn.vine.co -/
def pat1 : Str := sl ("http://v.cdn.vine.co")

/-- Legacy host pattern 2: https://v.cdn.vine.co -/
def pat2 : Str := sl ("https://v.cdn.vine.co")

/-- Legacy host pattern 3: http://mtc.cdn.vine.co -/
def pat3 : Str := sl ("http://mtc.cdn.vine.co")

/-- Legacy host pattern 4: https://mtc.cdn.vine.co -/
def pat4 : Str := sl ("https://mtc.cdn.vine.co")

/-- The mirror host every legacy host is replaced by. -/
def mirrorHost : Str := sl ("https://vines.s3.amazonaws.com")

/-- The four ReplaceAll calls of the string case of rewriteURLs, in source
order. -/
def rewriteCore (s : Str) : Str :=
  replaceAll pat4 mirrorHost
    (replaceAll pat3 mirrorHost
      (replaceAll pat2 mirrorHost
        (replaceAll pat1 mirrorHost s)))

/-- The string case of rewriteURLs from vine_full_harvest.go: if the string
contains ".cdn.vine.co", the four legacy scheme://host patterns are each
replaced (strings.ReplaceAll, in source order) by the mirror host. -/
def rewriteString (s : Str) : Str :=
  if containsB hostGuard s then rewriteCore s else s

/-- JSON-shaped values as produced by encoding/json into interface{}:
null, booleans, numbers, strings, arrays and objects.  Numbers are modelled
as integers (the ids this program reads are integral; float64 rounding is
outside the scope of this embedding). -/
inductive Json where
  | null : Json
  | bool (b : Bool) : Json
  | num (n : Int) : Json
  | str (s : Str) : Json
  | arr (xs : List Json) : Json
  | obj (fields : List (Str × Json)) : Json

mutual

/-- rewriteURLs from vine_full_harvest.go: recursive rewrite of every string
leaf, descending through objects and arrays; all other leaves returned
unchanged. -/
def rewriteURLs : Json → Json
  | .obj fields => .obj (rewriteURLsObj fields)
  | .arr xs => .arr (rewriteURLsArr xs)
  | .str s => .str (rewriteString s)
  | v => v

/-- The array case of rewriteURLs: rewrite every element in place. -/
def rewriteURLsArr : List Json → List Json
  | [] => []
  | x :: xs => rewriteURLs x :: rewriteURLsArr xs

/-- The map case of rewriteURLs: rewrite every value in place, keys kept. -/
def rewriteURLsObj : List (Str × Json) → List (Str × Json)
  | [] => []
  | (k, v) :: fs => (k, rewriteURLs v) :: rewriteURLsObj fs

end

/-- Side conditions on a pattern/replacement pair under which replaceAll
creates no new occurrences: the pattern fits inside the replacement, does
not occur in it, no nonempty suffix of the replacement shorter than q is a
prefix of q, and no nonempty suffix of q is a prefix of the replacement. -/
def SafePair (q r : Str) : Prop :=
  q ≠ [] ∧ q.length ≤ r.length ∧ ¬ q <:+: r ∧
    (∀ x, x <:+ r → x ≠ [] → x.length < q.length → ¬ x <+: q) ∧
    (∀ y, y <:+ q → y ≠ [] → ¬ y <+: r)

/-! ### Entity id extraction (vine_full_harvest.go lines 211-231, 319-327) -/


/-- A decoded JSON object (Go map[string]interface{}); fetchJSONMap decodes
every response body into this shape. -/
abbrev JsonMap := List (Str × Json)

/-- Go map indexing m[k]: the value stored under k, if present.  Go maps
have unique keys; the decoder keeps the last duplicate, and this embedding
represents a map as an association list with unique keys, looked up from
the front. -/
def jlookup (m : JsonMap) (k : Str) : Option Json :=
  match m with
  | [] => none
  | (k2, v) :: rest => if k2 = k then some v else jlookup rest k

/-- One decimal digit as a character. -/
def digitChar (d : Nat) : Char :=
  match d with
  | 0 => '0' | 1 => '1' | 2 => '2' | 3 => '3' | 4 => '4'
  | 5 => '5' | 6 => '6' | 7 => '7' | 8 => '8' | _ => '9'

/-- Fuelled decimal printer for naturals (fuel n + 1 always suffices since
the argument shrinks by a factor of ten each step). -/
def natDecimalGo : Nat → Nat → Str
  | 0, _ => []
  | fuel + 1, n =>
    if n < 10 then [digitChar n]
    else natDecimalGo fuel (n / 10) ++ [digitChar (n % 10)]

/-- The decimal digits of a natural number, most significant first. -/
def natDecimal (n : Nat) : Str := natDecimalGo (n + 1) n

/-- fmt.Sprintf with the %.0f verb applied to an integral float64: the plain
decimal digits of the integer, no exponent and no fractional component.
JSON numbers are modelled as integers (the ids this program reads are
integral). -/
def sprintF0 (n : Int) : Str :=
  if n < 0 then '-' :: natDecimal n.natAbs else natDecimal n.natAbs

/-- The numeric branch of user-id extraction: postData["userId"].(float64),
formatted with %.0f; empty string when absent or not a number. -/
def extractUserIDNum (m : JsonMap) : Str :=
  match jlookup m (sl "userId") with
  | some (.num f) => sprintF0 f
  | _ => []

/-- User-id extraction from fetchUsersFromSlugs (lines 212-217): a non-empty
string field "userIdStr" wins; else a numeric "userId" formatted %.0f; else
the empty string. -/
def extractUserID (m : JsonMap) : Str :=
  match jlookup m (sl "userIdStr") with
  | some (.str v) => if v ≠ [] then v else extractUserIDNum m
  | _ => extractUserIDNum m

/-- The numeric branch of post-id extraction: postData["postId"].(float64)
formatted %.0f; else the originally requested identifier. -/
def extractPostIDNum (m : JsonMap) (requested : Str) : Str :=
  match jlookup m (sl "postId") with
  | some (.num f) => sprintF0 f
  | _ => requested

/-- Post-id extraction (lines 220-227 and 320-327): a non-empty string field
"postIdStr" wins; else a numeric "postId" formatted %.0f; else the
originally requested identifier (slug or profile-list entry). -/
def extractPostID (m : JsonMap) (requested : Str) : Str :=
  match jlookup m (sl "postIdStr") with
  | some (.str v) => if v ≠ [] then v else extractPostIDNum m requested
  | _ => extractPostIDNum m requested

/-! ### collectPostIDsFromProfile (lines 442-511) -/


/-- unicode.IsSpace as used by strings.TrimSpace: the Unicode white-space
class. -/
def goIsSpace (c : Char) : Bool :=
  c = ' ' ∨ c = '\t' ∨ c = '\n' ∨ c.val = 11 ∨ c.val = 12 ∨ c = '\r' ∨
    c.val = 0x85 ∨ c.val = 0xA0 ∨ c.val = 0x1680 ∨
    (0x2000 ≤ c.val ∧ c.val ≤ 0x200A) ∨ c.val = 0x2028 ∨ c.val = 0x2029 ∨
    c.val = 0x202F ∨ c.val = 0x205F ∨ c.val = 0x3000

/-- strings.TrimSpace: drop white space from both ends. -/
def goTrimSpace (s : Str) : Str :=
  ((s.dropWhile goIsSpace).reverse.dropWhile goIsSpace).reverse

/-- The addID closure of collectPostIDsFromProfile: trim, drop empties,
de-duplicate, append in first-seen order.  (The Go closure keeps a
separate seen set whose members are always exactly the members of out, so
membership in out is the same check.) -/
def addID (out : List Str) (id : Str) : List Str :=
  let id := goTrimSpace id
  if id = [] then out
  else if id ∈ out then out
  else out ++ [id]

/-- One item of the preferred profile["posts"] list (lines 462-477):
strings and numbers are ids; a map contributes its "postIdStr" (non-empty
string) or else its numeric "postId"; everything else is ignored. -/
def postsFieldStep (out : List Str) (item : Json) : List Str :=
  match item with
  | .str s => addID out s
  | .num f => addID out (sprintF0 f)
  | .obj t =>
    match jlookup t (sl "postIdStr") with
    | some (.str s) =>
      if s ≠ [] then addID out s
      else
        match jlookup t (sl "postId") with
        | some (.num f) => addID out (sprintF0 f)
        | _ => out
    | _ =>
      match jlookup t (sl "postId") with
      | some (.num f) => addID out (sprintF0 f)
      | _ => out
  | _ => out

/-- Phase 1 of collectPostIDsFromProfile: the profile["posts"] list when it
is present and is an array ("posts" present but null or non-array collects
nothing, exactly like the Go type switch). -/
def collectFromPostsField (profile : JsonMap) : List Str :=
  match jlookup profile (sl "posts") with
  | some (.arr items) => items.foldl postsFieldStep []
  | _ => []

/-- strings.ToLower restricted to ASCII (the keys compared against are
ASCII; Char.toLower agrees with Go on them). -/
def toLowerStr (s : Str) : Str := s.map Char.toLower

mutual

/-- Phase 2 of collectPostIDsFromProfile: depth-first walk collecting every
value under a key equal to "postid" or "postidstr" after lowercasing.
(The Go code also checks vv != nil before the type switch; a nil value
matches neither the string nor the float64 case, so the check is
redundant and dropped here.) -/
def walkIDs : List Str → Json → List Str
  | out, .obj t => walkIDsObj out t
  | out, .arr xs => walkIDsArr out xs
  | out, _ => out

/-- Map case of the phase-2 walk: per field, collect the value if the
lowercased key matches (the out1 update of the Go closure), then recurse
into the value. -/
def walkIDsObj : List Str → JsonMap → List Str
  | out, [] => out
  | out, (k, vv) :: rest =>
    walkIDsObj
      (walkIDs
        (if toLowerStr k = sl "postid" ∨ toLowerStr k = sl "postidstr" then
          match vv with
          | .str s => addID out s
          | .num f => addID out (sprintF0 f)
          | _ => out
        else out) vv) rest

/-- Array case of the phase-2 walk. -/
def walkIDsArr : List Str → List Json → List Str
  | out, [] => out
  | out, x :: xs => walkIDsArr (walkIDs out x) xs

end

/-- collectPostIDsFromProfile from vine_full_harvest.go: the profile["posts"]
list when it yields at least one id, else a recursive scan of the whole
record. -/
def collectPostIDsFromProfile (profile : JsonMap) : List Str :=
  let out := collectFromPostsField profile
  if out = [] then walkIDs [] (.obj profile) else out

/-! ### collectMediaURLs (lines 515-541) -/


/-- The string filter of collectMediaURLs: mentions the mirror host and one
of the five media extensions. -/
def isMediaURL (s : Str) : Bool :=
  containsB (sl "vines.s3.amazonaws.com") s &&
    (containsB (sl ".mp4") s || containsB (sl ".jpg") s ||
      containsB (sl ".jpeg") s || containsB (sl ".png") s ||
      containsB (sl ".gif") s)

mutual

/-- collectMediaURLs walk: append every string leaf passing isMediaURL, in
depth-first order. -/
def collectMedia : List Str → Json → List Str
  | urls, .obj t => collectMediaObj urls t
  | urls, .arr xs => collectMediaArr urls xs
  | urls, .str s => if isMediaURL s then urls ++ [s] else urls
  | urls, _ => urls

/-- Map case of the collectMediaURLs walk. -/
def collectMediaObj : List Str → JsonMap → List Str
  | urls, [] => urls
  | urls, (_, vv) :: rest => collectMediaObj (collectMedia urls vv) rest

/-- Array case of the collectMediaURLs walk. -/
def collectMediaArr : List Str → List Json → List Str
  | urls, [] => urls
  | urls, x :: xs => collectMediaArr (collectMedia urls x) xs

end

/-- collectMediaURLs from vine_full_harvest.go. -/
def collectMediaURLs (root : Json) : List Str := collectMedia [] root

/-! ### Filesystem, paths and configuration -/


/-- Contents of a persisted file: a JSON document (written by
writeJSONFile) or raw media bytes (written by downloadMedia). -/
inductive FileContent where
  | json (j : Json)
  | bytes (b : Str)

/-- The filesystem: a map from absolute paths to file contents.  Paths are
flat strings exactly as filepath.Join produces them. -/
def FS : Type := Str → Option FileContent

/-- A completed write at a path (writeJSONFile / downloadMedia are atomic
temp-write-then-rename sequences; their effect on the final path is this
single update — the temp-file mechanics are modelled separately for the
atomicity claim). -/
def setFile (fs : FS) (p : Str) (c : FileContent) : FS :=
  fun q => if q = p then some c else fs q

/-- fileExists from vine_full_harvest.go (os.Stat succeeds). -/
def fileExists (fs : FS) (p : Str) : Bool := (fs p).isSome

/-- The flag configuration the pipeline runs under. -/
structure Config where
  outDir : Str
  basePost : Str
  baseProfile : Str
  download : Bool

/-- filepath.Join(outDir, "profiles", userID+".json"). -/
def profilePath (cfg : Config) (uid : Str) : Str :=
  cfg.outDir ++ sl "/profiles/" ++ uid ++ sl ".json"

/-- filepath.Join(outDir, "posts", userID, realID+".json"). -/
def postFilePath (cfg : Config) (uid rid : Str) : Str :=
  cfg.outDir ++ sl "/posts/" ++ uid ++ sl "/" ++ rid ++ sl ".json"

/-- filepath.Join(outDir, "media", cleanPath). -/
def mediaFilePath (cfg : Config) (mp : Str) : Str :=
  cfg.outDir ++ sl "/media/" ++ mp

/-- filepath.Join(outDir, "profiles.json") — the discovered-user-id dump. -/
def profilesJSONPath (cfg : Config) : Str :=
  cfg.outDir ++ sl "/profiles.json"

/-- strings.TrimRight(s, "/"). -/
def goTrimRightSlashes (s : Str) : Str :=
  (s.reverse.dropWhile (fun c => c = '/')).reverse

/-- url.PathEscape, modelled as the identity: it is an injective encoding
of the id into the request URL and no claim depends on the escaped form. -/
def pathEscape (s : Str) : Str := s

/-- The post endpoint URL: {basePost}/{escapedId}.json. -/
def postURL (cfg : Config) (id : Str) : Str :=
  goTrimRightSlashes cfg.basePost ++ sl "/" ++ pathEscape id ++ sl ".json"

/-- The profile endpoint URL: {baseProfile}/{escapedId}.json. -/
def profileURL (cfg : Config) (uid : Str) : Str :=
  goTrimRightSlashes cfg.baseProfile ++ sl "/" ++ pathEscape uid ++ sl ".json"

/-- The remote archive, as a deterministic oracle: jsonAt is the decoded
JSON object a GET of the URL yields (none for any failure: non-200 status,
transport error, or a body that does not decode into a map); bytesAt is the
media body a GET yields. -/
structure Oracle where
  jsonAt : Str → Option JsonMap
  bytesAt : Str → Option Str

/-- Observable events of a run: a blocking receive on the shared rate gate,
and an outbound HTTP request. -/
inductive Ev where
  | gate
  | http (u : Str)
deriving DecidableEq

/-- fetchJSONMap from vine_full_harvest.go: receive on the global rate
gate, then issue the GET and decode the body. -/
def fetchJSONMap (o : Oracle) (u : Str) : Option JsonMap × List Ev :=
  (o.jsonAt u, [Ev.gate, Ev.http u])

/-- url.Parse(rawURL).Path: everything after the scheme-and-host part. -/
def dropAfter (needle : Str) : Str → Option Str
  | [] => if needle.isEmpty then some [] else none
  | c :: t =>
    if needle.isPrefixOf (c :: t) then some ((c :: t).drop needle.length)
    else dropAfter needle t

/-- The path component of a URL (the part from the first slash after
"://"); a URL with no scheme is all path, as in net/url. -/
def urlPath (u : Str) : Str :=
  match dropAfter (sl "://") u with
  | some rest => rest.dropWhile (fun c => c ≠ '/')
  | none => u

/-- strings.TrimLeft(path, "/"). -/
def trimLeftSlashes (s : Str) : Str := s.dropWhile (fun c => c = '/')

/-- The run state: the filesystem plus the run-scoped downloadedMedia set
(the Go program guards it with a mutex; this embedding is the sequential
order of those serialized critical sections). -/
structure St where
  fs : FS
  media : List Str

/-- downloadMedia from vine_full_harvest.go (lines 543-598): check-and-insert
the URL into the downloadedMedia set before any network or file activity;
return at once when it is already present or the destination file exists;
otherwise GET (no rate-gate receive — the Go function never touches
rateLimiter) and write atomically on success. -/
def downloadMedia (o : Oracle) (cfg : Config) (rawURL : Str) (st : St) :
    St × List Ev :=
  if rawURL ∈ st.media then (st, [])
  else
    let st1 : St := { st with media := st.media ++ [rawURL] }
    let localPath := mediaFilePath cfg (trimLeftSlashes (urlPath rawURL))
    if fileExists st1.fs localPath then (st1, [])
    else
      match o.bytesAt rawURL with
      | none => (st1, [Ev.http rawURL])
      | some b =>
        ({ st1 with fs := setFile st1.fs localPath (.bytes b) },
          [Ev.http rawURL])

/-! ### Stage 2: fetchUsersFromSlugs (lines 188-268) -/


/-- The worker body of fetchUsersFromSlugs for one slug: fetch the post,
rewrite it, extract the user id (drop the slug when there is none), record
the user id, and persist the post under posts/<uid>/<realID>.json unless
that file already exists.  (The Go workers run concurrently; updates to the
user set are serialized by userMu and file writes are keyed by
oracle-determined paths, so this embedding is their sequential order.) -/
def resolveSlug (o : Oracle) (cfg : Config) (acc : St × List Str)
    (slug : Str) : (St × List Str) × List Ev :=
  let (st, users) := acc
  match fetchJSONMap o (postURL cfg slug) with
  | (none, ev) => ((st, users), ev)
  | (some raw, ev) =>
    let postData := rewriteURLsObj raw
    let userID := extractUserID postData
    let realID := extractPostID postData slug
    if userID = [] then ((st, users), ev)
    else
      let users1 := if userID ∈ users then users else users ++ [userID]
      let pfile := postFilePath cfg userID realID
      let st1 :=
        if fileExists st.fs pfile then st
        else { st with fs := setFile st.fs pfile (.json (.obj postData)) }
      ((st1, users1), ev)

/-- The fetchUsersFromSlugs job loop over all slugs. -/
def resolveStage (o : Oracle) (cfg : Config) :
    List Str → (St × List Str) → (St × List Str) × List Ev
  | [], acc => (acc, [])
  | slug :: rest, acc =>
    let r1 := resolveSlug o cfg acc slug
    let r2 := resolveStage o cfg rest r1.1
    (r2.1, r1.2 ++ r2.2)

/-- fetchUsersFromSlugs: run the per-slug workers starting from an empty
user set and return the discovered user ids. -/
def fetchUsersFromSlugs (o : Oracle) (cfg : Config) (slugs : List Str)
    (st : St) : (St × List Str) × List Ev :=
  resolveStage o cfg slugs (st, [])

/-! ### Stage 3: processUser (lines 272-352) -/


/-- The media loop at the end of the per-post body (lines 340-348). -/
def mediaLoop (o : Oracle) (cfg : Config) : List Str → St → St × List Ev
  | [], st => (st, [])
  | u :: rest, st =>
    let r1 := downloadMedia o cfg u st
    let r2 := mediaLoop o cfg rest r1.1
    (r2.1, r1.2 ++ r2.2)

/-- The per-post body of processUser (lines 310-349): fetch the post (the
fetch is unconditional — the existence check can only happen after the
real id is known), extract the real id from the raw record, skip
everything else when posts/<uid>/<realID>.json exists, else rewrite,
persist, and optionally download the referenced media. -/
def harvestPost (o : Oracle) (cfg : Config) (uid : Str) (st : St)
    (pid : Str) : St × List Ev :=
  match fetchJSONMap o (postURL cfg pid) with
  | (none, ev) => (st, ev)
  | (some raw, ev) =>
    let realID := extractPostID raw pid
    let pfile := postFilePath cfg uid realID
    if fileExists st.fs pfile then (st, ev)
    else
      let postData := rewriteURLsObj raw
      let st1 : St := { st with fs := setFile st.fs pfile (.json (.obj postData)) }
      if cfg.download then
        let r2 := mediaLoop o cfg (collectMediaURLs (.obj postData)) st1
        (r2.1, ev ++ r2.2)
      else (st1, ev)

/-- The loop of processUser over the profile's post ids. -/
def harvestLoop (o : Oracle) (cfg : Config) (uid : Str) :
    List Str → St → St × List Ev
  | [], st => (st, [])
  | pid :: rest, st =>
    let r1 := harvestPost o cfg uid st pid
    let r2 := harvestLoop o cfg uid rest r1.1
    (r2.1, r1.2 ++ r2.2)

/-- processUser from vine_full_harvest.go: fetch-and-persist the profile
unless profiles/<uid>.json already exists (an error abandons the user);
read the profile back from disk (an unreadable or non-object document
abandons the user); then run the per-post loop over
collectPostIDsFromProfile. -/
def processUser (o : Oracle) (cfg : Config) (uid : Str) (st : St) :
    St × List Ev :=
  let ppath := profilePath cfg uid
  let step1 : Option St × List Ev :=
    if fileExists st.fs ppath then (some st, [])
    else
      match fetchJSONMap o (profileURL cfg uid) with
      | (none, ev) => (none, ev)
      | (some raw, ev) =>
        let profile := rewriteURLsObj raw
        (some { st with fs := setFile st.fs ppath (.json (.obj profile)) }, ev)
  match step1 with
  | (none, ev) => (st, ev)
  | (some st1, ev) =>
    match st1.fs ppath with
    | some (.json (.obj profile)) =>
      let postIDs := collectPostIDsFromProfile profile
      let r2 := harvestLoop o cfg uid postIDs st1
      (r2.1, ev ++ r2.2)
    | _ => (st1, ev)

/-- The Step-3 worker pool of main: one processUser job per discovered user
(job-level errors are logged and do not stop the pool). -/
def harvestUsers (o : Oracle) (cfg : Config) :
    List Str → St → St × List Ev
  | [], st => (st, [])
  | uid :: rest, st =>
    let r1 := processUser o cfg uid st
    let r2 := harvestUsers o cfg rest r1.1
    (r2.1, r1.2 ++ r2.2)

/-! ### The full pipeline (main, lines 53-127) -/


/-- main after slug collection: abort when no slugs were found; resolve
slugs to users (abort when none was discovered); dump the discovered user
ids to profiles.json (unconditionally); harvest every user.  The slug set
is a parameter: the same input corpus yields the same slug set.  none
models the log.Fatalf exits. -/
def runPipeline (o : Oracle) (cfg : Config) (slugs : List Str) (st : St) :
    Option St × List Ev :=
  if slugs = [] then (none, [])
  else
    let r1 := fetchUsersFromSlugs o cfg slugs st
    let st1 := r1.1.1
    let userIDs := r1.1.2
    if userIDs = [] then (none, r1.2)
    else
      let st2 : St :=
        { st1 with
          fs := setFile st1.fs (profilesJSONPath cfg)
            (.json (.arr (userIDs.map .str))) }
      let r2 := harvestUsers o cfg userIDs st2
      (some r2.1, r1.2 ++ r2.2)

/-- The persisted-file view of a full run: each run of the process starts
with an empty downloadedMedia set; the filesystem is what persists
between runs. -/
def runPipelineFS (o : Oracle) (cfg : Config) (slugs : List Str) (fs : FS) :
    Option FS :=
  match runPipeline o cfg slugs ⟨fs, []⟩ with
  | (some st, _) => some st.fs
  | (none, _) => none

/-! ### Content preservation: no stage overwrites an existing file -/


/-- Every file present before is present unchanged after. -/
def FsPres (fs g : FS) : Prop := ∀ p c, fs p = some c → g p = some c

/-- Every path occupied before is occupied after. -/
def FsOcc (fs g : FS) : Prop := ∀ p, (fs p).isSome → (g p).isSome

/-! ### Atomic persistence: writeJSONFile (lines 389-405) and the identical
temp-write-then-rename tail of downloadMedia (lines 585-597) -/


/-- os.Rename(src, dst): dst takes the content of src, src disappears. -/
def renameFile (fs : FS) (src dst : Str) : FS :=
  fun q => if q = dst then fs src else if q = src then none else fs q

/-- Where a write attempt can fail: creating the temp file, writing the
encoded bytes (leaving a partial temp file), or closing; or it succeeds. -/
inductive WriteOutcome where
  | createFail
  | encodeFail (part : Str)
  | closeFail
  | ok

/-- The temp path writeJSONFile and downloadMedia write beside the
destination: path + ".tmp". -/
def tmpPath (path : Str) : Str := path ++ sl ".tmp"

/-- The sequence of filesystem states a write runs through: create the temp
file, write into it, close, and only then rename it onto the destination.
On createFail nothing is touched; on encodeFail the temp file holds the
partial bytes (the code does not remove it); on closeFail it holds the full
document; only the ok outcome performs the rename. -/
def atomicWriteStates (fs : FS) (path : Str) (full : FileContent)
    (w : WriteOutcome) : List FS :=
  match w with
  | .createFail => [fs]
  | .encodeFail part => [fs, setFile fs (tmpPath path) (.bytes part)]
  | .closeFail => [fs, setFile fs (tmpPath path) full]
  | .ok =>
    [fs, setFile fs (tmpPath path) full,
      renameFile (setFile fs (tmpPath path) full) (tmpPath path) path]

/-- Whether the write reported success (reached the rename). -/
def writeSucceeded : WriteOutcome → Bool
  | .ok => true
  | _ => false

/-! ### Slug scanning: collectVineSlugs (lines 131-184) and the line
scanner it shares with extractVineSlugs (vine-harvester lines 327-346) -/


/-- bufio.MaxScanTokenSize: the default cap of bufio.Scanner, used by
collectVineSlugs (which calls bufio.NewScanner with no Buffer call). -/
def maxScanTokenSize : Nat := 65536

/-- bufio.Scanner line iteration over a source split into lines: lines are
delivered in order until the first line that cannot fit in the buffer
(length at or above the token-size cap), at which point Scan returns false
(ErrTooLong) and the remaining lines of the source are never seen.
collectVineSlugs does not check scanner.Err, so the cut-off is silent. -/
def scanLines (maxTok : Nat) : List Str → List Str
  | [] => []
  | l :: rest => if maxTok ≤ l.length then [] else l :: scanLines maxTok rest

/-- ASCII letters and digits, the character class of the slug capture. -/
def isAlnum (c : Char) : Bool :=
  ('A' ≤ c ∧ c ≤ 'Z') ∨ ('a' ≤ c ∧ c ≤ 'z') ∨ ('0' ≤ c ∧ c ≤ '9')

/-- The regex scan vineURLRe.FindAllStringSubmatch(line, -1) for the
pattern vine.co/v/([A-Za-z0-9]+): leftmost non-overlapping matches of the
literal prefix followed by a maximal non-empty alphanumeric run, returning
the captured runs in order.  Fuelled by the line length (each step consumes
at least one character). -/
def findSlugsGo : Nat → Str → List Str
  | 0, _ => []
  | fuel + 1, s =>
    match s with
    | [] => []
    | c :: rest =>
      if (sl "vine.co/v/").isPrefixOf (c :: rest) then
        let tok := ((c :: rest).drop 10).takeWhile isAlnum
        if tok.isEmpty then findSlugsGo fuel rest
        else tok :: findSlugsGo fuel ((c :: rest).drop (10 + tok.length))
      else findSlugsGo fuel rest

/-- All slug captures of one line. -/
def findSlugs (line : Str) : List Str := findSlugsGo line.length line

/-- collectVineSlugs from vine_full_harvest.go: walk the corpus (a list of
text sources, each a list of lines), scan each source line by line with
the default bufio.Scanner, extract every slug match, trim it, and insert
the non-empty ones into the slug set.  The Go function accumulates a
map and returns its keys in map order; this embedding keeps first-seen
order, which fixes one admissible order of that set. -/
def collectVineSlugs (corpus : List (List Str)) : List Str :=
  corpus.foldl (fun acc file =>
    (scanLines maxScanTokenSize file).foldl (fun acc2 line =>
      (findSlugs line).foldl (fun a m =>
        let s := goTrimSpace m
        if s = [] then a else if s ∈ a then a else a ++ [s]) acc2) acc) []

/-! ### Specification-side view of collectPostIDsFromProfile -/


/-- Modelled from the spec text of the id extractor: the raw ids one item
of the profile["posts"] list contributes, before trimming and dedup. -/
def postsItemRaw (item : Json) : List Str :=
  match item with
  | .str s => [s]
  | .num f => [sprintF0 f]
  | .obj t =>
    match jlookup t (sl "postIdStr") with
    | some (.str s) =>
      if s ≠ [] then [s]
      else
        match jlookup t (sl "postId") with
        | some (.num f) => [sprintF0 f]
        | _ => []
    | _ =>
      match jlookup t (sl "postId") with
      | some (.num f) => [sprintF0 f]
      | _ => []
  | _ => []

/-- The raw id sequence of the profile["posts"] list. -/
def postsFieldRaw (profile : JsonMap) : List Str :=
  match jlookup profile (sl "posts") with
  | some (.arr items) => (items.map postsItemRaw).flatten
  | _ => []

mutual

/-- The raw id sequence of the recursive fallback scan, in depth-first
first-seen order, before trimming and dedup. -/
def walkRaw : Json → List Str
  | .obj t => walkRawObj t
  | .arr xs => walkRawArr xs
  | _ => []

/-- Map case of the raw fallback scan. -/
def walkRawObj : JsonMap → List Str
  | [] => []
  | (k, vv) :: rest =>
    (if toLowerStr k = sl "postid" ∨ toLowerStr k = sl "postidstr" then
      match vv with
      | .str s => [s]
      | .num f => [sprintF0 f]
      | _ => []
    else []) ++ walkRaw vv ++ walkRawObj rest

/-- Array case of the raw fallback scan. -/
def walkRawArr : List Json → List Str
  | [] => []
  | x :: xs => walkRaw x ++ walkRawArr xs

end

/-- Trim every id and drop the ones that trim to nothing. -/
def cleanList : List Str → List Str
  | [] => []
  | x :: xs =>
    if goTrimSpace x = [] then cleanList xs
    else goTrimSpace x :: cleanList xs

/-- Keep the first occurrence of every id not yet seen. -/
def firstSeenFrom (seen : List Str) : List Str → List Str
  | [] => []
  | x :: xs =>
    if x ∈ seen then firstSeenFrom seen xs
    else x :: firstSeenFrom (x :: seen) xs

def cfg0 : Config := ⟨sl ("o"), sl ("p"), sl ("q"), false⟩

def fs0 : FS := fun _ => none

def o0 : Oracle :=
  { jsonAt := fun u =>
      if u = sl ("p/s1.json") then
        some [(sl ("userIdStr"), .str (sl ("7"))), (sl ("postIdStr"), .str (sl ("5")))]
      else if u = sl ("q/7.json") then
        some [(sl ("posts"), Json.arr [Json.str (sl ("5"))])]
      else if u = sl ("p/5.json") then
        some [(sl ("postIdStr"), Json.str (sl ("5")))]
      else none,
    bytesAt := fun _ => none }

def c1Out : FS := (runPipelineFS o0 cfg0 [sl ("s1")] fs0).getD (fun _ => none)

/-- The oracle for the C10 witness: the fetched post has a post id but no
user id in any form. -/
def oC10 : Oracle :=
  { jsonAt := fun u =>
      if u = postURL cfg0 (sl ("s1")) then
        some [(sl ("postIdStr"), Json.str (sl ("5")))]
      else none,
    bytesAt := fun _ => none }

/-- The profile on disk for the C2 counterexample: user 7 lists post 5. -/
def c2profile : JsonMap := [(sl ("posts"), Json.arr [Json.str (sl ("5"))])]

/-- A filesystem where user 7's profile and post 5 are both already
persisted. -/
def c2fs : FS := fun p =>
  if p = profilePath cfg0 (sl ("7")) then some (.json (.obj c2profile))
  else if p = postFilePath cfg0 (sl ("7")) (sl ("5")) then
    some (.json (.obj []))
  else none

/-- The oracle for the C4 artifacts: no JSON anywhere, media bytes for
every URL. -/
def oM : Oracle := { jsonAt := fun _ => none, bytesAt := fun _ => some [] }

/-- A media URL on the mirror host. -/
def u0 : Str := sl ("https://vines.s3.amazonaws.com/a/b.mp4")

/-! ### String-level facts about replaceAll -/

theorem prefix_isInfix {α : Type} {p s : List α} (h : p <+: s) : p <:+: s := by
  obtain ⟨t, ht⟩ := h
  exact ⟨[], t, by simpa using ht⟩

theorem containsB_iff (p s : Str) : containsB p s = true ↔ p <:+: s := by
  induction s with
  | nil =>
    simp [containsB, List.isEmpty_iff]
  | cons c rest ih =>
    simp only [containsB, Bool.or_eq_true, List.isPrefixOf_iff_prefix, ih,
      List.infix_cons_iff]

/-- Splitting a prefix of an append. -/
theorem prefix_append_split {α : Type} {p a b : List α} (h : p <+: a ++ b) :
    p <+: a ∨ ∃ y, p = a ++ y ∧ y <+: b := by
  induction a generalizing p with
  | nil => exact Or.inr ⟨p, rfl, by simpa using h⟩
  | cons c a ih =>
    cases p with
    | nil => exact Or.inl (List.nil_prefix)
    | cons d p2 =>
      rw [List.cons_append, List.cons_prefix_cons] at h
      obtain ⟨rfl, h2⟩ := h
      rcases ih h2 with h3 | ⟨y, rfl, hy⟩
      · exact Or.inl (List.cons_prefix_cons.mpr ⟨rfl, h3⟩)
      · exact Or.inr ⟨y, by simp, hy⟩

/-- Splitting an occurrence inside an append: it lies in the left part, in
the right part, or straddles the boundary. -/
theorem infix_append_split {α : Type} {p a b : List α} (hp : p ≠ [])
    (h : p <:+: a ++ b) :
    p <:+: a ∨ p <:+: b ∨
      ∃ x y, p = x ++ y ∧ x ≠ [] ∧ y ≠ [] ∧ x <:+ a ∧ y <+: b := by
  induction a with
  | nil => exact Or.inr (Or.inl (by simpa using h))
  | cons c a ih =>
    rw [List.cons_append, List.infix_cons_iff] at h
    rcases h with hpre | hinf
    · cases p with
      | nil => exact absurd rfl hp
      | cons d p2 =>
        rw [List.cons_prefix_cons] at hpre
        obtain ⟨rfl, h2⟩ := hpre
        rcases prefix_append_split h2 with h3 | ⟨y, rfl, hy⟩
        · exact Or.inl (prefix_isInfix (List.cons_prefix_cons.mpr ⟨rfl, h3⟩))
        · by_cases hy0 : y = []
          · subst hy0
            exact Or.inl (by simp)
          · exact Or.inr (Or.inr ⟨d :: a, y, by simp, by simp, hy0,
              List.suffix_refl _, hy⟩)
    · rcases ih hinf with h3 | h3 | ⟨x, y, rfl, hx0, hy0, hx, hy⟩
      · exact Or.inl (List.infix_cons h3)
      · exact Or.inr (Or.inl h3)
      · exact Or.inr (Or.inr ⟨x, y, rfl, hx0, hy0,
          hx.trans (List.suffix_cons c a), hy⟩)

/-- replaceAllGo never changes a string the pattern does not occur in. -/
theorem replaceAllGo_of_no_occurrence {p r : Str} :
    ∀ (fuel : Nat) (s : Str), ¬ p <:+: s → replaceAllGo p r fuel s = s := by
  intro fuel
  induction fuel with
  | zero => intro s h; cases s <;> rfl
  | succ fuel ih =>
    intro s h
    cases s with
    | nil => rfl
    | cons c rest =>
      rw [replaceAllGo]
      rw [dif_neg]
      · exact congrArg (c :: ·) (ih rest (fun hin => h (List.infix_cons hin)))
      · rintro ⟨-, hpre⟩
        exact h (prefix_isInfix (List.isPrefixOf_iff_prefix.mp hpre))

theorem replaceAll_of_no_occurrence {p r : Str} (s : Str) (h : ¬ p <:+: s) :
    replaceAll p r s = s :=
  replaceAllGo_of_no_occurrence s.length s h

/-- A nonempty suffix of q that appears as a prefix of the replaceAllGo
output already appears as a prefix of the input, provided no nonempty
suffix of q is a prefix of the replacement r. -/
theorem prefix_input_of_prefix_replaceAllGo {p r q : Str}
    (hlen : q.length ≤ r.length)
    (hnc : ∀ y, y <:+ q → y ≠ [] → ¬ y <+: r) :
    ∀ (fuel : Nat) (s y : Str), y <:+ q → y ≠ [] →
      y <+: replaceAllGo p r fuel s → y <+: s := by
  intro fuel
  induction fuel with
  | zero => intro s y _ _ hpre; cases s <;> simpa [replaceAllGo] using hpre
  | succ fuel ih =>
    intro s y hsuf hne hpre
    cases s with
    | nil => simpa [replaceAllGo] using hpre
    | cons c rest =>
      rw [replaceAllGo] at hpre
      split at hpre
      · -- output is r ++ tail; y would be a prefix of r, excluded by hnc
        have hylen : y.length ≤ r.length := le_trans hsuf.length_le hlen
        have : y <+: r := (List.isPrefix_append_of_length hylen).mp hpre
        exact absurd this (hnc y hsuf hne)
      · cases y with
        | nil => exact absurd rfl hne
        | cons d y2 =>
          rw [List.cons_prefix_cons] at hpre
          obtain ⟨rfl, h2⟩ := hpre
          by_cases hy2 : y2 = []
          · subst hy2
            exact List.cons_prefix_cons.mpr ⟨rfl, List.nil_prefix⟩
          · have hy2suf : y2 <:+ q := (List.suffix_cons d y2).trans hsuf
            exact List.cons_prefix_cons.mpr ⟨rfl, ih rest y2 hy2suf hy2 h2⟩

/-- The pattern p does not occur in the output of its own replaceAllGo,
given the SafePair side conditions and sufficient fuel. -/
theorem not_infix_replaceAllGo_self {p r : Str} (hs : SafePair p r) :
    ∀ (fuel : Nat) (s : Str), s.length ≤ fuel →
      ¬ p <:+: replaceAllGo p r fuel s := by
  obtain ⟨hp, hlen, hpr, hsr, hnc⟩ := hs
  intro fuel
  induction fuel with
  | zero =>
    intro s hf
    have : s = [] := List.length_eq_zero.mp (Nat.le_zero.mp hf)
    subst this
    intro hcon
    exact hp (List.infix_nil.mp (by simpa [replaceAllGo] using hcon))
  | succ fuel ih =>
    intro s hf
    cases s with
    | nil =>
      intro hcon
      exact hp (List.infix_nil.mp (by simpa [replaceAllGo] using hcon))
    | cons c rest =>
      rw [replaceAllGo]
      split
      case isTrue h =>
        intro hcon
        have hplen : 0 < p.length := List.length_pos.mpr hp
        have hdlen : ((c :: rest).drop p.length).length ≤ fuel := by
          simp only [List.length_drop, List.length_cons]
          simp only [List.length_cons] at hf
          omega
        rcases infix_append_split hp hcon with hin | hin |
            ⟨x, y, hxy, hx0, hy0, hxsuf, hypre⟩
        · exact hpr hin
        · exact ih _ hdlen hin
        · have hxpre : x <+: p := ⟨y, hxy.symm⟩
          have hxlt : x.length < p.length := by
            have := congrArg List.length hxy
            simp only [List.length_append] at this
            have hy0l : 0 < y.length := List.length_pos.mpr hy0
            omega
          exact hsr x hxsuf hx0 hxlt hxpre
      case isFalse h =>
        intro hcon
        have hnpre : ¬ p <+: (c :: rest) := by
          intro hpre
          exact h ⟨hp, List.isPrefixOf_iff_prefix.mpr hpre⟩
        have hrlen : rest.length ≤ fuel := by
          simp only [List.length_cons] at hf; omega
        rcases List.infix_cons_iff.mp hcon with hpre | hin
        · cases p with
          | nil => exact hp rfl
          | cons d p2 =>
            rw [List.cons_prefix_cons] at hpre
            obtain ⟨rfl, h2⟩ := hpre
            by_cases hp2 : p2 = []
            · subst hp2
              exact hnpre (List.cons_prefix_cons.mpr ⟨rfl, List.nil_prefix⟩)
            · have hp2suf : p2 <:+ d :: p2 := List.suffix_cons d p2
              have : p2 <+: rest :=
                prefix_input_of_prefix_replaceAllGo hlen hnc fuel rest p2
                  hp2suf hp2 h2
              exact hnpre (List.cons_prefix_cons.mpr ⟨rfl, this⟩)
        · exact ih _ hrlen hin

/-- replaceAllGo with pattern p creates no occurrence of a pattern q that
satisfies the SafePair conditions and did not occur in the input. -/
theorem not_infix_replaceAllGo_other {p r q : Str} (hs : SafePair q r) :
    ∀ (fuel : Nat) (s : Str), ¬ q <:+: s →
      ¬ q <:+: replaceAllGo p r fuel s := by
  obtain ⟨hq, hlen, hqr, hsr, hnc⟩ := hs
  intro fuel
  induction fuel with
  | zero =>
    intro s hin
    cases s with
    | nil => simpa [replaceAllGo] using hin
    | cons c rest => simpa [replaceAllGo] using hin
  | succ fuel ih =>
    intro s hin
    cases s with
    | nil => simpa [replaceAllGo] using hin
    | cons c rest =>
      rw [replaceAllGo]
      split
      case isTrue h =>
        intro hcon
        have hdrop : ¬ q <:+: (c :: rest).drop p.length := fun hd =>
          hin (hd.trans (List.drop_suffix p.length (c :: rest)).isInfix)
        rcases infix_append_split hq hcon with h1 | h1 |
            ⟨x, y, hxy, hx0, hy0, hxsuf, hypre⟩
        · exact hqr h1
        · exact ih _ hdrop h1
        · have hxpre : x <+: q := ⟨y, hxy.symm⟩
          have hxlt : x.length < q.length := by
            have := congrArg List.length hxy
            simp only [List.length_append] at this
            have : 0 < y.length := List.length_pos.mpr hy0
            omega
          exact hsr x hxsuf hx0 hxlt hxpre
      case isFalse h =>
        intro hcon
        have hintail : ¬ q <:+: rest := fun hd => hin (List.infix_cons hd)
        rcases List.infix_cons_iff.mp hcon with hpre | h1
        · cases q with
          | nil => exact hq rfl
          | cons d q2 =>
            rw [List.cons_prefix_cons] at hpre
            obtain ⟨rfl, h2⟩ := hpre
            by_cases hq2 : q2 = []
            · subst hq2
              exact hin (prefix_isInfix
                (List.cons_prefix_cons.mpr ⟨rfl, List.nil_prefix⟩))
            · have hq2suf : q2 <:+ d :: q2 := List.suffix_cons d q2
              have : q2 <+: rest :=
                prefix_input_of_prefix_replaceAllGo hlen hnc fuel rest q2
                  hq2suf hq2 h2
              exact hin (prefix_isInfix (List.cons_prefix_cons.mpr ⟨rfl, this⟩))
        · exact ih _ hintail h1

theorem not_infix_replaceAll_self {p r : Str} (hs : SafePair p r) (s : Str) :
    ¬ p <:+: replaceAll p r s :=
  not_infix_replaceAllGo_self hs s.length s (le_refl _)

theorem not_infix_replaceAll_other {p r q : Str} (hs : SafePair q r)
    (s : Str) (h : ¬ q <:+: s) : ¬ q <:+: replaceAll p r s :=
  not_infix_replaceAllGo_other hs s.length s h

/-- SafePair follows from a suffix-indexed reformulation whose quantifiers
range over Nat, so that each instance can be established by decide. -/
theorem safePair_of_checks {q r : Str}
    (h0 : q ≠ [])
    (h1 : q.length ≤ r.length)
    (h2 : ¬ q <:+: r)
    (h3 : ∀ i, i < r.length → r.length - i < q.length → ¬ (r.drop i) <+: q)
    (h4 : ∀ i, i < q.length → ¬ (q.drop i) <+: r) :
    SafePair q r := by
  refine ⟨h0, h1, h2, ?_, ?_⟩
  · intro x hx hne hlt
    have hxl : x.length ≤ r.length := hx.length_le
    have hx0 : 0 < x.length := List.length_pos.mpr hne
    have heq : x = r.drop (r.length - x.length) := List.suffix_iff_eq_drop.mp hx
    rw [heq]
    exact h3 _ (by omega) (by omega)
  · intro y hy hne
    have hyl : y.length ≤ q.length := hy.length_le
    have hy0 : 0 < y.length := List.length_pos.mpr hne
    have heq : y = q.drop (q.length - y.length) := List.suffix_iff_eq_drop.mp hy
    rw [heq]
    exact h4 _ (by omega)

theorem safePat1 : SafePair pat1 mirrorHost :=
  safePair_of_checks (by decide) (by decide) (by decide) (by decide) (by decide)

theorem safePat2 : SafePair pat2 mirrorHost :=
  safePair_of_checks (by decide) (by decide) (by decide) (by decide) (by decide)

theorem safePat3 : SafePair pat3 mirrorHost :=
  safePair_of_checks (by decide) (by decide) (by decide) (by decide) (by decide)

theorem safePat4 : SafePair pat4 mirrorHost :=
  safePair_of_checks (by decide) (by decide) (by decide) (by decide) (by decide)

/-- None of the four legacy patterns occurs in the output of rewriteCore. -/
theorem not_infix_rewriteCore (s : Str) :
    ¬ pat1 <:+: rewriteCore s ∧ ¬ pat2 <:+: rewriteCore s ∧
    ¬ pat3 <:+: rewriteCore s ∧ ¬ pat4 <:+: rewriteCore s := by
  refine ⟨?_, ?_, ?_, ?_⟩
  · exact not_infix_replaceAll_other safePat1 _
      (not_infix_replaceAll_other safePat1 _
        (not_infix_replaceAll_other safePat1 _
          (not_infix_replaceAll_self safePat1 _)))
  · exact not_infix_replaceAll_other safePat2 _
      (not_infix_replaceAll_other safePat2 _
        (not_infix_replaceAll_self safePat2 _))
  · exact not_infix_replaceAll_other safePat3 _
      (not_infix_replaceAll_self safePat3 _)
  · exact not_infix_replaceAll_self safePat4 _

/-- rewriteCore is the identity on strings containing none of the four
legacy patterns. -/
theorem rewriteCore_of_no_pattern {s : Str}
    (h1 : ¬ pat1 <:+: s) (h2 : ¬ pat2 <:+: s)
    (h3 : ¬ pat3 <:+: s) (h4 : ¬ pat4 <:+: s) :
    rewriteCore s = s := by
  unfold rewriteCore
  rw [replaceAll_of_no_occurrence s h1, replaceAll_of_no_occurrence s h2,
    replaceAll_of_no_occurrence s h3, replaceAll_of_no_occurrence s h4]

/-- Rewriting a string twice equals rewriting it once. -/
theorem rewriteString_idem (s : Str) :
    rewriteString (rewriteString s) = rewriteString s := by
  by_cases hg : containsB hostGuard s
  · have hs1 : rewriteString s = rewriteCore s := by
      rw [rewriteString, if_pos hg]
    rw [hs1]
    obtain ⟨n1, n2, n3, n4⟩ := not_infix_rewriteCore s
    by_cases hg2 : containsB hostGuard (rewriteCore s)
    · rw [rewriteString, if_pos hg2]
      exact rewriteCore_of_no_pattern n1 n2 n3 n4
    · rw [rewriteString, if_neg hg2]
  · have hs1 : rewriteString s = s := by
      rw [rewriteString, if_neg hg]
    rw [hs1, hs1]

/-- A string the rewriter changes contains one of the four legacy patterns. -/
theorem rewriteString_changed_has_pattern {s : Str}
    (h : rewriteString s ≠ s) :
    pat1 <:+: s ∨ pat2 <:+: s ∨ pat3 <:+: s ∨ pat4 <:+: s := by
  by_contra hcon
  push_neg at hcon
  obtain ⟨n1, n2, n3, n4⟩ := hcon
  apply h
  by_cases hg : containsB hostGuard s
  · rw [rewriteString, if_pos hg]
    exact rewriteCore_of_no_pattern n1 n2 n3 n4
  · rw [rewriteString, if_neg hg]

/-- Any string containing one of the four legacy patterns passes the
".cdn.vine.co" guard, so rewriteString applies the four ReplaceAll calls
to it. -/
theorem rewriteString_of_pattern {s : Str}
    (h : pat1 <:+: s ∨ pat2 <:+: s ∨ pat3 <:+: s ∨ pat4 <:+: s) :
    rewriteString s = rewriteCore s := by
  have hg : hostGuard <:+: s := by
    rcases h with h | h | h | h
    · exact List.IsInfix.trans (by decide) h
    · exact List.IsInfix.trans (by decide) h
    · exact List.IsInfix.trans (by decide) h
    · exact List.IsInfix.trans (by decide) h
  rw [rewriteString, if_pos ((containsB_iff hostGuard s).mpr hg)]

mutual

/-- rewriteURLs is idempotent on every JSON value. -/
theorem rewriteURLs_idem : ∀ j : Json, rewriteURLs (rewriteURLs j) = rewriteURLs j
  | .null => rfl
  | .bool _ => rfl
  | .num _ => rfl
  | .str s => congrArg Json.str (rewriteString_idem s)
  | .arr xs => congrArg Json.arr (rewriteURLsArr_idem xs)
  | .obj fs => congrArg Json.obj (rewriteURLsObj_idem fs)

theorem rewriteURLsArr_idem :
    ∀ xs : List Json, rewriteURLsArr (rewriteURLsArr xs) = rewriteURLsArr xs
  | [] => rfl
  | x :: xs => by
    rw [rewriteURLsArr, rewriteURLsArr, rewriteURLs_idem x,
      rewriteURLsArr_idem xs]

theorem rewriteURLsObj_idem :
    ∀ fs : List (Str × Json),
      rewriteURLsObj (rewriteURLsObj fs) = rewriteURLsObj fs
  | [] => rfl
  | (k, v) :: fs => by
    rw [rewriteURLsObj, rewriteURLsObj, rewriteURLs_idem v,
      rewriteURLsObj_idem fs]

end

/-- The list case of rewriteURLs is List.map. -/
theorem rewriteURLsArr_eq_map (xs : List Json) :
    rewriteURLsArr xs = xs.map rewriteURLs := by
  induction xs with
  | nil => rfl
  | cons x xs ih => rw [rewriteURLsArr, ih, List.map_cons]

/-- The map case of rewriteURLs keeps every key and maps every value. -/
theorem rewriteURLsObj_eq_map (fs : List (Str × Json)) :
    rewriteURLsObj fs = fs.map (fun kv => (kv.1, rewriteURLs kv.2)) := by
  induction fs with
  | nil => rfl
  | cons kv fs ih =>
    obtain ⟨k, v⟩ := kv
    rw [rewriteURLsObj, ih, List.map_cons]

/-! ### Facts about setFile and paths -/

theorem setFile_self (fs : FS) (p : Str) (c : FileContent) :
    setFile fs p c p = some c := by
  simp [setFile]

theorem setFile_other {q p : Str} (fs : FS) (c : FileContent) (h : q ≠ p) :
    setFile fs p c q = fs q := by
  simp [setFile, h]

/-- Overwriting a path with the value it already holds changes nothing. -/
theorem setFile_eq_of_same {fs : FS} {p : Str} {c : FileContent}
    (h : fs p = some c) : setFile fs p c = fs := by
  funext q
  by_cases hq : q = p
  · subst hq; simp [setFile, h]
  · simp [setFile, hq]

/-- A write to a currently absent path keeps every present file intact. -/
theorem setFile_pres {fs : FS} {pw : Str} {cw : FileContent}
    (hw : fs pw = none) {p : Str} {c : FileContent} (h : fs p = some c) :
    setFile fs pw cw p = some c := by
  by_cases hp : p = pw
  · subst hp; rw [h] at hw; exact absurd hw (by simp)
  · rw [setFile_other fs cw hp]; exact h

theorem setFile_occ {fs : FS} (pw : Str) (cw : FileContent) (p : Str)
    (h : (fs p).isSome) : (setFile fs pw cw p).isSome := by
  by_cases hp : p = pw
  · subst hp; simp [setFile]
  · rw [setFile_other fs cw hp]; exact h

/-- Lists diverging at the first character after a common prefix differ. -/
theorem ne_append_cons {c d : Char} (hne : c ≠ d) (a x y : List Char) :
    a ++ c :: x ≠ a ++ d :: y := by
  intro h
  have h2 := List.append_cancel_left h
  injection h2 with h3 _
  exact hne h3

/-- A post file path never collides with a profile file path. -/
theorem postFilePath_ne_profilePath (cfg : Config) (uid rid uid2 : Str) :
    postFilePath cfg uid rid ≠ profilePath cfg uid2 := by
  unfold postFilePath profilePath
  have h1 : cfg.outDir ++ sl "/posts/" ++ uid ++ sl "/" ++ rid ++ sl ".json" =
      (cfg.outDir ++ ['/', 'p']) ++
        'o' :: (sl "sts/" ++ uid ++ sl "/" ++ rid ++ sl ".json") := by
    simp [sl]
  have h2 : cfg.outDir ++ sl "/profiles/" ++ uid2 ++ sl ".json" =
      (cfg.outDir ++ ['/', 'p']) ++
        'r' :: (sl "ofiles/" ++ uid2 ++ sl ".json") := by
    simp [sl]
  rw [h1, h2]
  exact ne_append_cons (by decide) _ _ _

/-- A media file path never collides with a profile file path. -/
theorem mediaFilePath_ne_profilePath (cfg : Config) (mp uid2 : Str) :
    mediaFilePath cfg mp ≠ profilePath cfg uid2 := by
  unfold mediaFilePath profilePath
  have h1 : cfg.outDir ++ sl "/media/" ++ mp =
      (cfg.outDir ++ ['/']) ++ 'm' :: (sl "edia/" ++ mp) := by
    simp [sl]
  have h2 : cfg.outDir ++ sl "/profiles/" ++ uid2 ++ sl ".json" =
      (cfg.outDir ++ ['/']) ++ 'p' :: (sl "rofiles/" ++ uid2 ++ sl ".json") := by
    simp [sl]
  rw [h1, h2]
  exact ne_append_cons (by decide) _ _ _

/-- Profile file paths of distinct user ids differ. -/
theorem profilePath_inj {cfg : Config} {uid1 uid2 : Str}
    (h : profilePath cfg uid1 = profilePath cfg uid2) : uid1 = uid2 := by
  unfold profilePath at h
  have h1 : (cfg.outDir ++ sl "/profiles/") ++ (uid1 ++ sl ".json") =
      (cfg.outDir ++ sl "/profiles/") ++ (uid2 ++ sl ".json") := by
    simpa [List.append_assoc] using h
  have h2 := List.append_cancel_left h1
  exact List.append_cancel_right h2

theorem FsPres.occ {fs g : FS} (h : FsPres fs g) : FsOcc fs g := by
  intro p hp
  obtain ⟨c, hc⟩ := Option.isSome_iff_exists.mp hp
  rw [h p c hc]
  rfl

theorem fsPres_rfl (fs : FS) : FsPres fs fs := fun _ _ h => h

theorem FsPres.trans {f1 f2 f3 : FS} (h1 : FsPres f1 f2) (h2 : FsPres f2 f3) :
    FsPres f1 f3 := fun p c h => h2 p c (h1 p c h)

/-- A false fileExists check is an absent file. -/
theorem eq_none_of_not_fileExists {fs : FS} {p : Str}
    (h : ¬ fileExists fs p = true) : fs p = none := by
  unfold fileExists at h
  cases hv : fs p
  · rfl
  · rw [hv] at h; simp at h

theorem downloadMedia_pres (o : Oracle) (cfg : Config) (u : Str) (st : St) :
    FsPres st.fs (downloadMedia o cfg u st).1.fs := by
  intro p c h
  by_cases h1 : u ∈ st.media
  · simp [downloadMedia, h1, h]
  · by_cases h2 : fileExists st.fs (mediaFilePath cfg (trimLeftSlashes (urlPath u)))
    · simp [downloadMedia, h1, h2, h]
    · cases hb : o.bytesAt u with
      | none => simp [downloadMedia, h1, h2, hb, h]
      | some b =>
        simp [downloadMedia, h1, h2, hb]
        have hw : st.fs (mediaFilePath cfg (trimLeftSlashes (urlPath u))) = none :=
          eq_none_of_not_fileExists h2
        exact setFile_pres hw h

theorem mediaLoop_pres (o : Oracle) (cfg : Config) :
    ∀ (urls : List Str) (st : St), FsPres st.fs (mediaLoop o cfg urls st).1.fs := by
  intro urls
  induction urls with
  | nil => intro st; exact fsPres_rfl _
  | cons u rest ih =>
    intro st
    rw [mediaLoop]
    exact (downloadMedia_pres o cfg u st).trans (ih _)

theorem harvestPost_pres (o : Oracle) (cfg : Config) (uid : Str) (st : St)
    (pid : Str) : FsPres st.fs (harvestPost o cfg uid st pid).1.fs := by
  intro p c h
  cases hf : o.jsonAt (postURL cfg pid) with
  | none => simp [harvestPost, fetchJSONMap, hf, h]
  | some raw =>
    by_cases h2 : fileExists st.fs (postFilePath cfg uid (extractPostID raw pid))
    · simp [harvestPost, fetchJSONMap, hf, h2, h]
    · have hw : st.fs (postFilePath cfg uid (extractPostID raw pid)) = none :=
        eq_none_of_not_fileExists h2
      by_cases hd : cfg.download
      · simp only [harvestPost, fetchJSONMap, hf, h2, hd]
        simp only [Bool.false_eq_true, if_false, if_true]
        exact mediaLoop_pres o cfg _ _ p c (setFile_pres hw h)
      · simp [harvestPost, fetchJSONMap, hf, h2, hd]
        exact setFile_pres hw h

theorem harvestLoop_pres (o : Oracle) (cfg : Config) (uid : Str) :
    ∀ (pids : List Str) (st : St),
      FsPres st.fs (harvestLoop o cfg uid pids st).1.fs := by
  intro pids
  induction pids with
  | nil => intro st; exact fsPres_rfl _
  | cons pid rest ih =>
    intro st
    rw [harvestLoop]
    exact (harvestPost_pres o cfg uid st pid).trans (ih _)

theorem processUser_pres (o : Oracle) (cfg : Config) (uid : Str) (st : St) :
    FsPres st.fs (processUser o cfg uid st).1.fs := by
  intro p c h
  by_cases h1 : fileExists st.fs (profilePath cfg uid)
  · simp only [processUser, h1, if_true]
    cases hr : st.fs (profilePath cfg uid) with
    | none => simp [fileExists, hr] at h1
    | some fc =>
      cases fc with
      | bytes b => simp [hr, h]
      | json j =>
        cases j with
        | obj profile => simp only [hr]; exact harvestLoop_pres o cfg uid _ st p c h
        | null => simp [hr, h]
        | bool b => simp [hr, h]
        | num n => simp [hr, h]
        | str s => simp [hr, h]
        | arr xs => simp [hr, h]
  · have hw : st.fs (profilePath cfg uid) = none :=
      eq_none_of_not_fileExists h1
    cases hf : o.jsonAt (profileURL cfg uid) with
    | none => simp [processUser, h1, fetchJSONMap, hf, h]
    | some raw =>
      simp only [processUser, h1, fetchJSONMap, hf, if_false, Bool.false_eq_true]
      have hset := @setFile_pres st.fs (profilePath cfg uid)
        (FileContent.json (.obj (rewriteURLsObj raw))) hw p c h
      rw [setFile_self]
      exact harvestLoop_pres o cfg uid _ _ p c hset

theorem harvestUsers_pres (o : Oracle) (cfg : Config) :
    ∀ (uids : List Str) (st : St),
      FsPres st.fs (harvestUsers o cfg uids st).1.fs := by
  intro uids
  induction uids with
  | nil => intro st; exact fsPres_rfl _
  | cons uid rest ih =>
    intro st
    rw [harvestUsers]
    exact (processUser_pres o cfg uid st).trans (ih _)

theorem resolveSlug_pres (o : Oracle) (cfg : Config) (acc : St × List Str)
    (slug : Str) : FsPres acc.1.fs (resolveSlug o cfg acc slug).1.1.fs := by
  obtain ⟨st, users⟩ := acc
  intro p c h
  simp only at h
  cases hf : o.jsonAt (postURL cfg slug) with
  | none => simp [resolveSlug, fetchJSONMap, hf]; exact h
  | some raw =>
    by_cases hu : extractUserID (rewriteURLsObj raw) = []
    · simp [resolveSlug, fetchJSONMap, hf, hu]; exact h
    · by_cases h2 : fileExists st.fs (postFilePath cfg
        (extractUserID (rewriteURLsObj raw))
        (extractPostID (rewriteURLsObj raw) slug))
      · simp [resolveSlug, fetchJSONMap, hf, hu, h2]; exact h
      · have hw : st.fs (postFilePath cfg (extractUserID (rewriteURLsObj raw))
            (extractPostID (rewriteURLsObj raw) slug)) = none :=
          eq_none_of_not_fileExists h2
        simp [resolveSlug, fetchJSONMap, hf, hu, h2]
        exact setFile_pres hw h

/-- A file present after a setFile either was present or is the written
path. -/
theorem setFile_some_elim {fs : FS} {pw p : Str} {cw c : FileContent}
    (h : setFile fs pw cw p = some c) : fs p = some c ∨ p = pw := by
  by_cases hp : p = pw
  · exact Or.inr hp
  · rw [setFile_other fs cw hp] at h
    exact Or.inl h

/-- Every file downloadMedia creates is a media file. -/
theorem downloadMedia_writes {o : Oracle} {cfg : Config} {u : Str} {st : St}
    {p : Str} {c : FileContent}
    (h : (downloadMedia o cfg u st).1.fs p = some c) :
    st.fs p = some c ∨ ∃ mp, p = mediaFilePath cfg mp := by
  by_cases h1 : u ∈ st.media
  · simp [downloadMedia, h1] at h
    exact Or.inl h
  · by_cases h2 : fileExists st.fs (mediaFilePath cfg (trimLeftSlashes (urlPath u)))
    · simp [downloadMedia, h1, h2] at h
      exact Or.inl h
    · cases hb : o.bytesAt u with
      | none =>
        simp [downloadMedia, h1, h2, hb] at h
        exact Or.inl h
      | some b =>
        simp [downloadMedia, h1, h2, hb] at h
        rcases setFile_some_elim h with h3 | h3
        · exact Or.inl h3
        · exact Or.inr ⟨_, h3⟩

/-- Every file the media loop creates is a media file. -/
theorem mediaLoop_writes {o : Oracle} {cfg : Config} :
    ∀ {urls : List Str} {st : St} {p : Str} {c : FileContent},
      (mediaLoop o cfg urls st).1.fs p = some c →
      st.fs p = some c ∨ ∃ mp, p = mediaFilePath cfg mp := by
  intro urls
  induction urls with
  | nil => intro st p c h; exact Or.inl h
  | cons u rest ih =>
    intro st p c h
    rw [mediaLoop] at h
    rcases ih h with h2 | h2
    · exact downloadMedia_writes h2
    · exact Or.inr h2

/-- Every file harvestPost creates is a post file of its user or a media
file. -/
theorem harvestPost_writes {o : Oracle} {cfg : Config} {uid : Str} {st : St}
    {pid p : Str} {c : FileContent}
    (h : (harvestPost o cfg uid st pid).1.fs p = some c) :
    st.fs p = some c ∨ (∃ rid, p = postFilePath cfg uid rid) ∨
      ∃ mp, p = mediaFilePath cfg mp := by
  revert h
  cases hf : o.jsonAt (postURL cfg pid) with
  | none =>
    intro h
    simp [harvestPost, fetchJSONMap, hf] at h
    exact Or.inl h
  | some raw =>
    by_cases h2 : fileExists st.fs (postFilePath cfg uid (extractPostID raw pid))
    · intro h
      simp [harvestPost, fetchJSONMap, hf, h2] at h
      exact Or.inl h
    · by_cases hd : cfg.download
      · intro h
        simp only [harvestPost, fetchJSONMap, hf, h2, hd, Bool.false_eq_true,
          if_false, if_true] at h
        rcases mediaLoop_writes h with h3 | h3
        · rcases setFile_some_elim h3 with h4 | h4
          · exact Or.inl h4
          · exact Or.inr (Or.inl ⟨_, h4⟩)
        · exact Or.inr (Or.inr h3)
      · intro h
        simp [harvestPost, fetchJSONMap, hf, h2, hd] at h
        rcases setFile_some_elim h with h4 | h4
        · exact Or.inl h4
        · exact Or.inr (Or.inl ⟨_, h4⟩)

/-- Every file the per-user post loop creates is a post file of its user or
a media file. -/
theorem harvestLoop_writes {o : Oracle} {cfg : Config} {uid : Str} :
    ∀ {pids : List Str} {st : St} {p : Str} {c : FileContent},
      (harvestLoop o cfg uid pids st).1.fs p = some c →
      st.fs p = some c ∨ (∃ rid, p = postFilePath cfg uid rid) ∨
        ∃ mp, p = mediaFilePath cfg mp := by
  intro pids
  induction pids with
  | nil => intro st p c h; exact Or.inl h
  | cons pid rest ih =>
    intro st p c h
    rw [harvestLoop] at h
    rcases ih h with h2 | h2
    · exact harvestPost_writes h2
    · exact Or.inr h2

/-- Every file processUser creates is its user's profile file, one of its
user's post files, or a media file. -/
theorem processUser_writes {o : Oracle} {cfg : Config} {uid : Str} {st : St}
    {p : Str} {c : FileContent}
    (h : (processUser o cfg uid st).1.fs p = some c) :
    st.fs p = some c ∨ p = profilePath cfg uid ∨
      (∃ rid, p = postFilePath cfg uid rid) ∨
      ∃ mp, p = mediaFilePath cfg mp := by
  revert h
  by_cases h1 : fileExists st.fs (profilePath cfg uid)
  · simp only [processUser, h1, if_true]
    cases hr : st.fs (profilePath cfg uid) with
    | none => simp [fileExists, hr] at h1
    | some fc =>
      cases fc with
      | bytes b => intro h; exact Or.inl h
      | json j =>
        cases j with
        | obj profile =>
          intro h
          rcases harvestLoop_writes h with h2 | h2
          · exact Or.inl h2
          · exact Or.inr (Or.inr h2)
        | null => intro h; exact Or.inl h
        | bool b => intro h; exact Or.inl h
        | num n => intro h; exact Or.inl h
        | str s => intro h; exact Or.inl h
        | arr xs => intro h; exact Or.inl h
  · have hw : st.fs (profilePath cfg uid) = none :=
      eq_none_of_not_fileExists h1
    cases hf : o.jsonAt (profileURL cfg uid) with
    | none =>
      intro h
      simp [processUser, h1, fetchJSONMap, hf] at h
      exact Or.inl h
    | some raw =>
      simp only [processUser, h1, fetchJSONMap, hf, if_false, Bool.false_eq_true]
      rw [setFile_self]
      intro h
      rcases harvestLoop_writes h with h2 | h2
      · rcases setFile_some_elim h2 with h3 | h3
        · exact Or.inl h3
        · exact Or.inr (Or.inl h3)
      · exact Or.inr (Or.inr h2)

/-- Every file the harvest stage creates belongs to one of the processed
users (profile or post file) or is a media file. -/
theorem harvestUsers_writes {o : Oracle} {cfg : Config} :
    ∀ {uids : List Str} {st : St} {p : Str} {c : FileContent},
      (harvestUsers o cfg uids st).1.fs p = some c →
      st.fs p = some c ∨
        (∃ uid ∈ uids, p = profilePath cfg uid ∨
          ∃ rid, p = postFilePath cfg uid rid) ∨
        ∃ mp, p = mediaFilePath cfg mp := by
  intro uids
  induction uids with
  | nil => intro st p c h; exact Or.inl h
  | cons uid rest ih =>
    intro st p c h
    rw [harvestUsers] at h
    rcases ih h with h2 | h2 | h2
    · rcases processUser_writes h2 with h3 | h3 | h3 | h3
      · exact Or.inl h3
      · exact Or.inr (Or.inl ⟨uid, by simp, Or.inl h3⟩)
      · exact Or.inr (Or.inl ⟨uid, by simp, Or.inr h3⟩)
      · exact Or.inr (Or.inr h3)
    · obtain ⟨uid2, huid2, hsh⟩ := h2
      exact Or.inr (Or.inl ⟨uid2, by simp [huid2], hsh⟩)
    · exact Or.inr (Or.inr h2)

theorem resolveStage_pres (o : Oracle) (cfg : Config) :
    ∀ (slugs : List Str) (acc : St × List Str),
      FsPres acc.1.fs (resolveStage o cfg slugs acc).1.1.fs := by
  intro slugs
  induction slugs with
  | nil => intro acc; exact fsPres_rfl _
  | cons slug rest ih =>
    intro acc
    rw [resolveStage]
    exact (resolveSlug_pres o cfg acc slug).trans (ih _)

/-- The resolve stage never touches the downloadedMedia set. -/
theorem resolveStage_media (o : Oracle) (cfg : Config) :
    ∀ (slugs : List Str) (acc : St × List Str),
      (resolveStage o cfg slugs acc).1.1.media = acc.1.media := by
  intro slugs
  induction slugs with
  | nil => intro acc; rfl
  | cons slug rest ih =>
    intro acc
    rw [resolveStage]
    rw [ih]
    obtain ⟨st, users⟩ := acc
    cases hf : o.jsonAt (postURL cfg slug) with
    | none => simp [resolveSlug, fetchJSONMap, hf]
    | some raw =>
      by_cases hu : extractUserID (rewriteURLsObj raw) = []
      · simp [resolveSlug, fetchJSONMap, hf, hu]
      · by_cases h2 : fileExists st.fs (postFilePath cfg
          (extractUserID (rewriteURLsObj raw))
          (extractPostID (rewriteURLsObj raw) slug))
        · simp [resolveSlug, fetchJSONMap, hf, hu, h2]
        · simp [resolveSlug, fetchJSONMap, hf, hu, h2]

/-! ### Second-run identity lemmas -/


/-- A harvest-stage run leaves the profile file of a user it does not
process exactly as it found it. -/
theorem harvestUsers_profile_agree {o : Oracle} {cfg : Config}
    {uids : List Str} {st : St} {uid : Str} (hnin : uid ∉ uids) :
    (harvestUsers o cfg uids st).1.fs (profilePath cfg uid) =
      st.fs (profilePath cfg uid) := by
  cases hv : st.fs (profilePath cfg uid) with
  | some c => exact harvestUsers_pres o cfg uids st _ c hv
  | none =>
    cases hval : (harvestUsers o cfg uids st).1.fs (profilePath cfg uid) with
    | none => rfl
    | some c =>
      rcases harvestUsers_writes hval with h2 | ⟨uid2, huid2, hsh⟩ | ⟨mp, hsh⟩
      · rw [hv] at h2; cases h2
      · rcases hsh with hsh | ⟨rid, hsh⟩
        · exact absurd huid2 (profilePath_inj hsh ▸ hnin)
        · exact absurd hsh.symm (postFilePath_ne_profilePath cfg uid2 rid uid)
      · exact absurd hsh.symm (mediaFilePath_ne_profilePath cfg mp uid)

/-- When every post file the per-user loop would produce is already on
disk, the loop is a no-op. -/
theorem harvestLoop_idem {o : Oracle} {cfg : Config} {uid : Str} (g : FS)
    (m2 : List Str) :
    ∀ (pids : List Str) (st : St),
      FsOcc (harvestLoop o cfg uid pids st).1.fs g →
      (harvestLoop o cfg uid pids ⟨g, m2⟩).1 = ⟨g, m2⟩ := by
  intro pids
  induction pids with
  | nil => intro st hocc; rfl
  | cons pid rest ih =>
    intro st hocc
    rw [harvestLoop] at hocc ⊢
    cases hf : o.jsonAt (postURL cfg pid) with
    | none =>
      have hstep1 : (harvestPost o cfg uid st pid).1 = st := by
        simp [harvestPost, fetchJSONMap, hf]
      have hstep2 : (harvestPost o cfg uid ⟨g, m2⟩ pid).1 = ⟨g, m2⟩ := by
        simp [harvestPost, fetchJSONMap, hf]
      rw [hstep2]
      rw [hstep1] at hocc
      exact ih st hocc
    | some raw =>
      have hofile : ((harvestPost o cfg uid st pid).1.fs
          (postFilePath cfg uid (extractPostID raw pid))).isSome := by
        by_cases h2 : fileExists st.fs (postFilePath cfg uid (extractPostID raw pid))
        · simp only [harvestPost, fetchJSONMap, hf, h2, if_true]
          simpa [fileExists] using h2
        · by_cases hd : cfg.download
          · simp only [harvestPost, fetchJSONMap, hf, h2, hd, Bool.false_eq_true,
              if_false, if_true]
            exact (mediaLoop_pres o cfg _ _).occ _ (by simp [setFile_self])
          · simp only [harvestPost, fetchJSONMap, hf, h2, hd, Bool.false_eq_true,
              if_false]
            simp [setFile_self]
      have hgfile : fileExists g (postFilePath cfg uid (extractPostID raw pid)) = true := by
        have h3 := (harvestLoop_pres o cfg uid rest _).occ _ hofile
        exact hocc _ h3
      have hstep2 : (harvestPost o cfg uid ⟨g, m2⟩ pid).1 = ⟨g, m2⟩ := by
        simp [harvestPost, fetchJSONMap, hf, hgfile]
      rw [hstep2]
      exact ih _ hocc

/-- processUser is a no-op when the profile file exists but does not hold
a JSON object: the decode step fails and the user is abandoned. -/
theorem processUser_stuck {o : Oracle} {cfg : Config} {uid : Str} {g : FS}
    {m2 : List Str} {fc : FileContent}
    (hg : g (profilePath cfg uid) = some fc)
    (hfc : ∀ profile, fc ≠ .json (.obj profile)) :
    (processUser o cfg uid ⟨g, m2⟩).1 = ⟨g, m2⟩ := by
  have hex : fileExists g (profilePath cfg uid) = true := by
    simp [fileExists, hg]
  cases fc with
  | bytes b => simp [processUser, hex, hg]
  | json j =>
    cases j with
    | obj profile => exact absurd rfl (hfc profile)
    | null => simp [processUser, hex, hg]
    | bool b => simp [processUser, hex, hg]
    | num n => simp [processUser, hex, hg]
    | str s => simp [processUser, hex, hg]
    | arr xs => simp [processUser, hex, hg]

/-- When its user's files from a previous identical run are all on disk,
processUser is a no-op. -/
theorem processUser_idem {o : Oracle} {cfg : Config} {uid : Str} (g : FS)
    (m2 : List Str) (st : St)
    (hocc : FsOcc (processUser o cfg uid st).1.fs g)
    (hprof : g (profilePath cfg uid) =
      (processUser o cfg uid st).1.fs (profilePath cfg uid)) :
    (processUser o cfg uid ⟨g, m2⟩).1 = ⟨g, m2⟩ := by
  by_cases h1 : fileExists st.fs (profilePath cfg uid)
  · cases hr : st.fs (profilePath cfg uid) with
    | none => simp [fileExists, hr] at h1
    | some fc =>
      cases fc with
      | json j =>
        cases j with
        | obj profile =>
          have hout : (processUser o cfg uid st).1 =
              (harvestLoop o cfg uid (collectPostIDsFromProfile profile) st).1 := by
            simp [processUser, h1, hr]
          rw [hout] at hocc hprof
          have hg : g (profilePath cfg uid) = some (.json (.obj profile)) := by
            rw [hprof]
            exact harvestLoop_pres o cfg uid _ st _ _ hr
          have hex : fileExists g (profilePath cfg uid) = true := by
            simp [fileExists, hg]
          simp only [processUser, hex, if_true, hg]
          exact harvestLoop_idem g m2 _ st hocc
        | null =>
          have hout : (processUser o cfg uid st).1 = st := by
            simp [processUser, h1, hr]
          rw [hout] at hprof
          exact processUser_stuck (hprof.trans hr) (fun _ h => Json.noConfusion
            (FileContent.json.inj h))
        | bool b =>
          have hout : (processUser o cfg uid st).1 = st := by
            simp [processUser, h1, hr]
          rw [hout] at hprof
          exact processUser_stuck (hprof.trans hr) (fun _ h => Json.noConfusion
            (FileContent.json.inj h))
        | num n =>
          have hout : (processUser o cfg uid st).1 = st := by
            simp [processUser, h1, hr]
          rw [hout] at hprof
          exact processUser_stuck (hprof.trans hr) (fun _ h => Json.noConfusion
            (FileContent.json.inj h))
        | str s =>
          have hout : (processUser o cfg uid st).1 = st := by
            simp [processUser, h1, hr]
          rw [hout] at hprof
          exact processUser_stuck (hprof.trans hr) (fun _ h => Json.noConfusion
            (FileContent.json.inj h))
        | arr xs =>
          have hout : (processUser o cfg uid st).1 = st := by
            simp [processUser, h1, hr]
          rw [hout] at hprof
          exact processUser_stuck (hprof.trans hr) (fun _ h => Json.noConfusion
            (FileContent.json.inj h))
      | bytes b =>
        have hout : (processUser o cfg uid st).1 = st := by
          simp [processUser, h1, hr]
        rw [hout] at hprof
        exact processUser_stuck (hprof.trans hr) (fun _ h => FileContent.noConfusion h)
  · have hw : st.fs (profilePath cfg uid) = none :=
      eq_none_of_not_fileExists h1
    cases hf : o.jsonAt (profileURL cfg uid) with
    | none =>
      have hout : (processUser o cfg uid st).1 = st := by
        simp [processUser, h1, fetchJSONMap, hf]
      rw [hout] at hprof
      have hex : ¬ fileExists g (profilePath cfg uid) = true := by
        simp [fileExists, hprof, hw]
      simp [processUser, hex, fetchJSONMap, hf]
    | some raw =>
      have hout : (processUser o cfg uid st).1 =
          (harvestLoop o cfg uid
            (collectPostIDsFromProfile (rewriteURLsObj raw))
            ⟨setFile st.fs (profilePath cfg uid)
              (.json (.obj (rewriteURLsObj raw))), st.media⟩).1 := by
        simp only [processUser, h1, fetchJSONMap, hf, if_false, Bool.false_eq_true]
        simp [setFile_self]
      rw [hout] at hocc hprof
      have hg : g (profilePath cfg uid) = some (.json (.obj (rewriteURLsObj raw))) := by
        rw [hprof]
        exact harvestLoop_pres o cfg uid _ _ _ _ (by simp [setFile_self])
      have hex : fileExists g (profilePath cfg uid) = true := by
        simp [fileExists, hg]
      simp only [processUser, hex, if_true, hg]
      exact harvestLoop_idem g m2 _ _ hocc

/-- Re-running the harvest stage over the same user list on its own output
filesystem changes nothing. -/
theorem harvestUsers_idem {o : Oracle} {cfg : Config} (m2 : List Str) :
    ∀ (uids : List Str), uids.Nodup → ∀ (st : St),
      (harvestUsers o cfg uids
        ⟨(harvestUsers o cfg uids st).1.fs, m2⟩).1 =
      ⟨(harvestUsers o cfg uids st).1.fs, m2⟩ := by
  intro uids
  induction uids with
  | nil => intro _ st; rfl
  | cons uid rest ih =>
    intro hnd st
    have hnin : uid ∉ rest := by
      simp [List.nodup_cons] at hnd
      exact hnd.1
    have hndr : rest.Nodup := by
      simp [List.nodup_cons] at hnd
      exact hnd.2
    rw [harvestUsers]
    have hfinal : (harvestUsers o cfg (uid :: rest) st).1 =
        (harvestUsers o cfg rest (processUser o cfg uid st).1).1 := by
      rw [harvestUsers]
    rw [hfinal]
    have hstep : (processUser o cfg uid
        ⟨(harvestUsers o cfg rest (processUser o cfg uid st).1).1.fs, m2⟩).1 =
        ⟨(harvestUsers o cfg rest (processUser o cfg uid st).1).1.fs, m2⟩ := by
      apply processUser_idem
      · exact (harvestUsers_pres o cfg rest _).occ
      · exact harvestUsers_profile_agree hnin
    rw [hstep]
    exact ih hndr (processUser o cfg uid st).1

/-- Re-running the resolve stage on a filesystem that already holds every
file it would write is a no-op that rediscovers the same user ids. -/
theorem resolveStage_idem {o : Oracle} {cfg : Config} (g : FS) (m2 : List Str) :
    ∀ (slugs : List Str) (st : St) (acc : List Str),
      FsOcc (resolveStage o cfg slugs (st, acc)).1.1.fs g →
      (resolveStage o cfg slugs (⟨g, m2⟩, acc)).1 =
        (⟨g, m2⟩, (resolveStage o cfg slugs (st, acc)).1.2) := by
  intro slugs
  induction slugs with
  | nil => intro st acc hocc; rfl
  | cons slug rest ih =>
    intro st acc hocc
    show (resolveStage o cfg rest (resolveSlug o cfg (⟨g, m2⟩, acc) slug).1).1 =
      (⟨g, m2⟩,
        (resolveStage o cfg rest (resolveSlug o cfg (st, acc) slug).1).1.2)
    have hocc2 : FsOcc
        (resolveStage o cfg rest (resolveSlug o cfg (st, acc) slug).1).1.1.fs g :=
      hocc
    cases hf : o.jsonAt (postURL cfg slug) with
    | none =>
      have hs1 : (resolveSlug o cfg (st, acc) slug).1 = (st, acc) := by
        simp [resolveSlug, fetchJSONMap, hf]
      have hs2 : (resolveSlug o cfg (⟨g, m2⟩, acc) slug).1 = (⟨g, m2⟩, acc) := by
        simp [resolveSlug, fetchJSONMap, hf]
      rw [hs1] at hocc2 ⊢
      rw [hs2]
      exact ih st acc hocc2
    | some raw =>
      by_cases hu : extractUserID (rewriteURLsObj raw) = []
      · have hs1 : (resolveSlug o cfg (st, acc) slug).1 = (st, acc) := by
          simp [resolveSlug, fetchJSONMap, hf, hu]
        have hs2 : (resolveSlug o cfg (⟨g, m2⟩, acc) slug).1 = (⟨g, m2⟩, acc) := by
          simp [resolveSlug, fetchJSONMap, hf, hu]
        rw [hs1] at hocc2 ⊢
        rw [hs2]
        exact ih st acc hocc2
      · have hs1 : (resolveSlug o cfg (st, acc) slug).1 =
            ((resolveSlug o cfg (st, acc) slug).1.1,
              if extractUserID (rewriteURLsObj raw) ∈ acc then acc
              else acc ++ [extractUserID (rewriteURLsObj raw)]) := by
          simp [resolveSlug, fetchJSONMap, hf, hu]
        have hoccfile : ((resolveSlug o cfg (st, acc) slug).1.1.fs
            (postFilePath cfg (extractUserID (rewriteURLsObj raw))
              (extractPostID (rewriteURLsObj raw) slug))).isSome := by
          by_cases h2 : fileExists st.fs
            (postFilePath cfg (extractUserID (rewriteURLsObj raw))
              (extractPostID (rewriteURLsObj raw) slug))
          · simp only [resolveSlug, fetchJSONMap, hf, hu, h2]
            simp only [if_false, if_true]
            simpa [fileExists] using h2
          · simp only [resolveSlug, fetchJSONMap, hf, hu, h2]
            simp [setFile_self, hu, h2]
        have hgex : fileExists g
            (postFilePath cfg (extractUserID (rewriteURLsObj raw))
              (extractPostID (rewriteURLsObj raw) slug)) = true := by
          exact hocc2 _ ((resolveStage_pres o cfg rest _).occ _ hoccfile)
        have hs2 : (resolveSlug o cfg (⟨g, m2⟩, acc) slug).1 =
            (⟨g, m2⟩,
              if extractUserID (rewriteURLsObj raw) ∈ acc then acc
              else acc ++ [extractUserID (rewriteURLsObj raw)]) := by
          simp [resolveSlug, fetchJSONMap, hf, hu, hgex]
        rw [hs2]
        rw [hs1] at hocc2 ⊢
        exact ih _ _ hocc2

/-- The resolve stage accumulates a duplicate-free user list. -/
theorem resolveStage_nodup (o : Oracle) (cfg : Config) :
    ∀ (slugs : List Str) (acc : St × List Str), acc.2.Nodup →
      ((resolveStage o cfg slugs acc).1.2).Nodup := by
  intro slugs
  induction slugs with
  | nil => intro acc h; exact h
  | cons slug rest ih =>
    intro acc h
    rw [resolveStage]
    apply ih
    obtain ⟨st, users⟩ := acc
    simp only at h
    cases hf : o.jsonAt (postURL cfg slug) with
    | none => simpa [resolveSlug, fetchJSONMap, hf] using h
    | some raw =>
      by_cases hu : extractUserID (rewriteURLsObj raw) = []
      · simpa [resolveSlug, fetchJSONMap, hf, hu] using h
      · by_cases hm : extractUserID (rewriteURLsObj raw) ∈ users
        · simpa [resolveSlug, fetchJSONMap, hf, hu, hm] using h
        · have : (users ++ [extractUserID (rewriteURLsObj raw)]).Nodup := by
            simp [List.nodup_append, h, hm]
          simpa [resolveSlug, fetchJSONMap, hf, hu, hm] using this

/-- Re-running the whole pipeline on its own output filesystem returns
that filesystem unchanged. -/
theorem runPipelineFS_idem {o : Oracle} {cfg : Config} {slugs : List Str}
    {fs fs1 : FS} (h : runPipelineFS o cfg slugs fs = some fs1) :
    runPipelineFS o cfg slugs fs1 = some fs1 := by
  by_cases hs : slugs = []
  · rw [hs] at h
    simp [runPipelineFS, runPipeline] at h
  · simp only [runPipelineFS, runPipeline] at h
    rw [if_neg hs] at h
    by_cases hids : (fetchUsersFromSlugs o cfg slugs ⟨fs, []⟩).1.2 = []
    · rw [if_pos hids] at h
      simp at h
    · rw [if_neg hids] at h
      simp only [Option.map] at h
      have hfs1 : fs1 =
          (harvestUsers o cfg (fetchUsersFromSlugs o cfg slugs ⟨fs, []⟩).1.2
            ⟨setFile (fetchUsersFromSlugs o cfg slugs ⟨fs, []⟩).1.1.fs
              (profilesJSONPath cfg)
              (.json (.arr (((fetchUsersFromSlugs o cfg slugs ⟨fs, []⟩).1.2).map
                Json.str))),
              (fetchUsersFromSlugs o cfg slugs ⟨fs, []⟩).1.1.media⟩).1.fs :=
        (Option.some.inj h).symm
      have hoccR : FsOcc (resolveStage o cfg slugs (⟨fs, []⟩, [])).1.1.fs fs1 := by
        intro p hp
        rw [hfs1]
        apply (harvestUsers_pres o cfg _ _).occ
        show (setFile (fetchUsersFromSlugs o cfg slugs ⟨fs, []⟩).1.1.fs
          (profilesJSONPath cfg) _ p).isSome
        exact setFile_occ _ _ _ hp
      have hres2 : (fetchUsersFromSlugs o cfg slugs ⟨fs1, []⟩).1 =
          (⟨fs1, []⟩, (fetchUsersFromSlugs o cfg slugs ⟨fs, []⟩).1.2) :=
        resolveStage_idem fs1 [] slugs ⟨fs, []⟩ [] hoccR
      have hnodup : ((fetchUsersFromSlugs o cfg slugs ⟨fs, []⟩).1.2).Nodup :=
        resolveStage_nodup o cfg slugs (⟨fs, []⟩, []) List.nodup_nil
      have hpj : fs1 (profilesJSONPath cfg) =
          some (.json (.arr (((fetchUsersFromSlugs o cfg slugs ⟨fs, []⟩).1.2).map
            Json.str))) := by
        rw [hfs1]
        apply harvestUsers_pres
        show setFile (fetchUsersFromSlugs o cfg slugs ⟨fs, []⟩).1.1.fs
          (profilesJSONPath cfg) _ _ = _
        exact setFile_self _ _ _
      have hsame : setFile fs1 (profilesJSONPath cfg)
          (.json (.arr (((fetchUsersFromSlugs o cfg slugs ⟨fs, []⟩).1.2).map
            Json.str))) = fs1 := setFile_eq_of_same hpj
      have hH : (harvestUsers o cfg (fetchUsersFromSlugs o cfg slugs ⟨fs, []⟩).1.2
          ⟨fs1, []⟩).1 = ⟨fs1, []⟩ := by
        rw [hfs1]
        exact harvestUsers_idem [] _ hnodup _
      simp only [runPipelineFS, runPipeline]
      rw [if_neg hs]
      simp only [hres2]
      rw [if_neg hids]
      simp only [Option.map]
      rw [hsame, hH]

/-- A path never equals its own temp path. -/
theorem tmpPath_ne (path : Str) : path ≠ tmpPath path := by
  intro h
  have := congrArg List.length h
  simp [tmpPath, sl] at this

/-- firstSeenFrom only depends on membership in the seen accumulator. -/
theorem firstSeenFrom_congr :
    ∀ (l : List Str) (seen1 seen2 : List Str),
      (∀ x, x ∈ seen1 ↔ x ∈ seen2) →
      firstSeenFrom seen1 l = firstSeenFrom seen2 l := by
  intro l
  induction l with
  | nil => intro _ _ _; rfl
  | cons x xs ih =>
    intro seen1 seen2 hmem
    rw [firstSeenFrom, firstSeenFrom]
    by_cases hx : x ∈ seen1
    · rw [if_pos hx, if_pos ((hmem x).mp hx)]
      exact ih seen1 seen2 hmem
    · rw [if_neg hx, if_neg (fun h => hx ((hmem x).mpr h))]
      rw [ih (x :: seen1) (x :: seen2) (by intro y; simp [hmem y])]

/-- The addID fold is exactly: trim, drop empties, keep first occurrences,
append after the accumulator. -/
theorem foldl_addID_eq :
    ∀ (l : List Str) (out : List Str),
      l.foldl addID out = out ++ firstSeenFrom out (cleanList l) := by
  intro l
  induction l with
  | nil => intro out; simp [cleanList, firstSeenFrom]
  | cons x xs ih =>
    intro out
    rw [List.foldl_cons, cleanList]
    by_cases ht : goTrimSpace x = []
    · rw [if_pos ht]
      have haddid : addID out x = out := by
        simp [addID, ht]
      rw [haddid, ih]
    · rw [if_neg ht]
      rw [firstSeenFrom]
      by_cases hm : goTrimSpace x ∈ out
      · rw [if_pos hm]
        have haddid : addID out x = out := by
          simp [addID, ht, hm]
        rw [haddid, ih]
      · rw [if_neg hm]
        have haddid : addID out x = out ++ [goTrimSpace x] := by
          simp [addID, ht, hm]
        rw [haddid, ih]
        rw [firstSeenFrom_congr (cleanList xs) (out ++ [goTrimSpace x])
          (goTrimSpace x :: out) (by intro y; simp; tauto)]
        simp

/-- One item of the posts list processed by the code equals the addID fold
of its raw ids. -/
theorem postsFieldStep_eq (out : List Str) (item : Json) :
    postsFieldStep out item = (postsItemRaw item).foldl addID out := by
  cases item with
  | str s => rfl
  | num f => rfl
  | null => rfl
  | bool b => rfl
  | arr xs => rfl
  | obj t =>
    rw [postsFieldStep, postsItemRaw]
    cases jlookup t (sl "postIdStr") with
    | none =>
      cases hl : jlookup t (sl "postId") with
      | none => rfl
      | some v => cases v <;> rfl
    | some v =>
      cases v with
      | str s =>
        dsimp only
        by_cases hs : s ≠ []
        · rw [if_pos hs, if_pos hs]; rfl
        · rw [if_neg hs, if_neg hs]
          cases hl : jlookup t (sl "postId") with
          | none => rfl
          | some v2 => cases v2 <;> rfl
      | null =>
        cases hl : jlookup t (sl "postId") with
        | none => rfl
        | some v2 => cases v2 <;> rfl
      | bool b =>
        cases hl : jlookup t (sl "postId") with
        | none => rfl
        | some v2 => cases v2 <;> rfl
      | num n =>
        cases hl : jlookup t (sl "postId") with
        | none => rfl
        | some v2 => cases v2 <;> rfl
      | arr xs =>
        cases hl : jlookup t (sl "postId") with
        | none => rfl
        | some v2 => cases v2 <;> rfl
      | obj t2 =>
        cases hl : jlookup t (sl "postId") with
        | none => rfl
        | some v2 => cases v2 <;> rfl

/-- The phase-1 fold over items equals the addID fold over the
concatenated raw ids. -/
theorem foldl_postsFieldStep_eq :
    ∀ (items : List Json) (out : List Str),
      items.foldl postsFieldStep out =
        ((items.map postsItemRaw).flatten).foldl addID out := by
  intro items
  induction items with
  | nil => intro out; rfl
  | cons item rest ih =>
    intro out
    rw [List.foldl_cons, List.map_cons, List.flatten_cons, List.foldl_append]
    rw [postsFieldStep_eq, ih]

mutual

/-- The phase-2 walk equals the addID fold over the raw DFS sequence. -/
theorem walkIDs_eq : ∀ (j : Json) (out : List Str),
    walkIDs out j = (walkRaw j).foldl addID out
  | .null, out => rfl
  | .bool _, out => rfl
  | .num _, out => rfl
  | .str _, out => rfl
  | .arr xs, out => by
    rw [walkIDs, walkRaw]
    exact walkIDsArr_eq xs out
  | .obj t, out => by
    rw [walkIDs, walkRaw]
    exact walkIDsObj_eq t out

theorem walkIDsObj_eq : ∀ (t : JsonMap) (out : List Str),
    walkIDsObj out t = (walkRawObj t).foldl addID out
  | [], out => rfl
  | (k, vv) :: rest, out => by
    have hvv := walkIDs_eq vv
    have hrest := walkIDsObj_eq rest
    by_cases hk : toLowerStr k = sl "postid" ∨ toLowerStr k = sl "postidstr"
    all_goals
      cases vv <;>
        (rw [walkIDsObj, walkRawObj, List.foldl_append, List.foldl_append,
          hrest, hvv] <;>
          first
          | exact fun a h => Json.noConfusion h
          | (simp only [hk, if_true, if_false, ite_true, ite_false]; try rfl)
          | rfl)

theorem walkIDsArr_eq : ∀ (xs : List Json) (out : List Str),
    walkIDsArr out xs = (walkRawArr xs).foldl addID out
  | [], out => rfl
  | x :: xs, out => by
    rw [walkIDsArr, walkRawArr, List.foldl_append]
    rw [walkIDsArr_eq xs, walkIDs_eq x]

end

/-- The head of a dropWhile result fails the predicate. -/
theorem dropWhile_head_false {p : Char → Bool} :
    ∀ {l : Str} {c : Char} {t : Str}, l.dropWhile p = c :: t → p c = false := by
  intro l
  induction l with
  | nil => intro c t h; cases h
  | cons a l ih =>
    intro c t h
    rw [List.dropWhile_cons] at h
    by_cases ha : p a
    · rw [if_pos ha] at h
      exact ih h
    · rw [if_neg ha] at h
      cases h
      simpa using ha

/-- goTrimSpace is idempotent. -/
theorem goTrimSpace_idem (s : Str) :
    goTrimSpace (goTrimSpace s) = goTrimSpace s := by
  unfold goTrimSpace
  set u := s.dropWhile goIsSpace with hu
  set w := u.reverse.dropWhile goIsSpace with hw
  have hstep1 : w.reverse.dropWhile goIsSpace = w.reverse := by
    cases hv : w.reverse with
    | nil => rfl
    | cons c t =>
      -- w.reverse is a prefix of u, so its head is the head of u
      have hwsuf : w <:+ u.reverse := List.dropWhile_suffix _
      have hpre : w.reverse <+: u := by
        have h2 := List.reverse_prefix.mpr hwsuf
        simpa using h2
      rw [hv] at hpre
      obtain ⟨r, hr⟩ := hpre
      have hufalse : goIsSpace c = false := by
        apply dropWhile_head_false (l := s) (t := (t ++ r))
        rw [hu] at hr
        rw [← hr]
        rfl
      rw [List.dropWhile_cons, hufalse]
      simp
  rw [hstep1, List.reverse_reverse]
  have hstep2 : w.dropWhile goIsSpace = w := by
    cases hv : w with
    | nil => rfl
    | cons c t =>
      have hufalse : goIsSpace c = false := by
        apply dropWhile_head_false (l := u.reverse)
        rw [← hw, hv]
      rw [List.dropWhile_cons, hufalse]
      simp
  rw [hstep2]

/-- The elements of an addID fold whose accumulator is well-formed are
distinct, non-empty and trimmed. -/
theorem foldl_addID_invariant :
    ∀ (l : List Str) (out : List Str),
      out.Nodup → (∀ x ∈ out, x ≠ [] ∧ goTrimSpace x = x) →
      (l.foldl addID out).Nodup ∧
        (∀ x ∈ l.foldl addID out, x ≠ [] ∧ goTrimSpace x = x) := by
  intro l
  induction l with
  | nil => intro out h1 h2; exact ⟨h1, h2⟩
  | cons y ys ih =>
    intro out h1 h2
    rw [List.foldl_cons]
    by_cases ht : goTrimSpace y = []
    · have : addID out y = out := by simp [addID, ht]
      rw [this]
      exact ih out h1 h2
    · by_cases hm : goTrimSpace y ∈ out
      · have : addID out y = out := by simp [addID, ht, hm]
        rw [this]
        exact ih out h1 h2
      · have heq : addID out y = out ++ [goTrimSpace y] := by
          simp [addID, ht, hm]
        rw [heq]
        apply ih
        · simp [List.nodup_append, h1, hm]
        · intro x hx
          rcases List.mem_append.mp hx with hx | hx
          · exact h2 x hx
          · rw [List.mem_singleton.mp hx]
            exact ⟨ht, goTrimSpace_idem y⟩

/-! ### The claims -/


/-- C1: running the full pipeline a second time against the same input
corpus (the same slug set and the same remote oracle) and the same output
directory leaves the persisted file set identical to the set after the
first run: a successful run is a fixed point of the pipeline, because every
write of a profile file, post file, or media file is guarded by an
existence check on its destination path.  (The profiles.json dump of
discovered user ids is rewritten, with identical content.) -/
theorem claim_C1 (o : Oracle) (cfg : Config) (slugs : List Str)
    (fs fs1 : FS) (h : runPipelineFS o cfg slugs fs = some fs1) :
    runPipelineFS o cfg slugs fs1 = some fs1 :=
  runPipelineFS_idem h

/-- Witness for C1 at a one-slug corpus whose oracle serves one post and
one profile. -/
theorem claim_C1_witness :
    runPipelineFS o0 cfg0 [sl ("s1")] fs0 = some c1Out ∧
    runPipelineFS o0 cfg0 [sl ("s1")] c1Out = some c1Out :=
  ⟨rfl, claim_C1 o0 cfg0 [sl ("s1")] fs0 c1Out rfl⟩

/-- C2 counterexample: with post 5 already persisted at its destination
path, processUser for user 7 still issues the HTTP fetch for post 5 — the
trace contains the request, refuting that zero fetch calls are issued for
an already-persisted post. -/
theorem claim_C2_counterexample :
    fileExists c2fs (postFilePath cfg0 (sl ("7")) (sl ("5"))) = true ∧
    (processUser o0 cfg0 (sl ("7")) ⟨c2fs, []⟩).2 =
      [Ev.gate, Ev.http (postURL cfg0 (sl ("5")))] ∧
    Ev.http (postURL cfg0 (sl ("5"))) ∈
      (processUser o0 cfg0 (sl ("7")) ⟨c2fs, []⟩).2 :=
  ⟨rfl, rfl, by decide⟩

/-- C2 (amended): an already-persisted profile is not re-fetched — when the
profile file exists the whole trace of processUser is the per-post loop's
trace, with no profile request.  Posts, however, are always fetched: for
each post id the fetch is issued unconditionally (the destination path
depends on the fetched record), and an existing post file only suppresses
the rewrite, the write and the media downloads, leaving the state
untouched. -/
theorem claim_C2 :
    (∀ (o : Oracle) (cfg : Config) (uid : Str) (st : St),
      fileExists st.fs (profilePath cfg uid) = true →
      (processUser o cfg uid st).2 =
        (match st.fs (profilePath cfg uid) with
         | some (.json (.obj profile)) =>
           (harvestLoop o cfg uid (collectPostIDsFromProfile profile) st).2
         | _ => [])) ∧
    (∀ (o : Oracle) (cfg : Config) (uid : Str) (st : St) (pid : Str)
        (raw : JsonMap),
      o.jsonAt (postURL cfg pid) = some raw →
      fileExists st.fs (postFilePath cfg uid (extractPostID raw pid)) = true →
      harvestPost o cfg uid st pid = (st, [Ev.gate, Ev.http (postURL cfg pid)])) := by
  constructor
  · intro o cfg uid st h1
    cases hr : st.fs (profilePath cfg uid) with
    | none => simp [fileExists, hr] at h1
    | some fc =>
      cases fc with
      | bytes b => simp [processUser, h1, hr]
      | json j =>
        cases j with
        | obj profile => simp [processUser, h1, hr]
        | null => simp [processUser, h1, hr]
        | bool b => simp [processUser, h1, hr]
        | num n => simp [processUser, h1, hr]
        | str s => simp [processUser, h1, hr]
        | arr xs => simp [processUser, h1, hr]
  · intro o cfg uid st pid raw hf hex
    simp [harvestPost, fetchJSONMap, hf, hex]

/-- Witness for C2 (amended) at the concrete persisted post. -/
theorem claim_C2_witness :
    harvestPost o0 cfg0 (sl ("7")) ⟨c2fs, []⟩ (sl ("5")) =
      (⟨c2fs, []⟩, [Ev.gate, Ev.http (postURL cfg0 (sl ("5")))]) :=
  claim_C2.2 o0 cfg0 (sl ("7")) ⟨c2fs, []⟩ (sl ("5"))
    [(sl ("postIdStr"), Json.str (sl ("5")))] rfl rfl

/-- C4 counterexample: a fresh media download issues its HTTP request with
no receive on the shared rate gate anywhere in its trace — downloadMedia
never touches rateLimiter, refuting that every outbound fetch blocks on
the gate. -/
theorem claim_C4_counterexample :
    Ev.http u0 ∈ (downloadMedia oM cfg0 u0 ⟨fs0, []⟩).2 ∧
    Ev.gate ∉ (downloadMedia oM cfg0 u0 ⟨fs0, []⟩).2 := by
  decide

/-- C4 (amended): the JSON fetches of the resolve and harvest stages (all
of which go through fetchJSONMap) block on the shared global rate gate
before the request is issued; media downloads do not — downloadMedia
issues its request without any gate receive. -/
theorem claim_C4 :
    (∀ (o : Oracle) (u : Str), (fetchJSONMap o u).2 = [Ev.gate, Ev.http u]) ∧
    (∀ (o : Oracle) (cfg : Config) (u : Str) (st : St),
      Ev.gate ∉ (downloadMedia o cfg u st).2) := by
  constructor
  · intro o u
    rfl
  · intro o cfg u st
    by_cases h1 : u ∈ st.media
    · simp [downloadMedia, h1]
    · by_cases h2 : fileExists st.fs
        (mediaFilePath cfg (trimLeftSlashes (urlPath u)))
      · simp [downloadMedia, h1, h2]
      · cases hb : o.bytesAt u with
        | none => simp [downloadMedia, h1, h2, hb]
        | some b => simp [downloadMedia, h1, h2, hb]

/-- Witness for C4 (amended) at a concrete URL and state. -/
theorem claim_C4_witness :
    (fetchJSONMap oM u0).2 = [Ev.gate, Ev.http u0] ∧
    Ev.gate ∉ (downloadMedia oM cfg0 u0 ⟨fs0, []⟩).2 :=
  ⟨claim_C4.1 oM u0, claim_C4.2 oM cfg0 u0 ⟨fs0, []⟩⟩

/-- C10: in the resolve stage, a successfully fetched and rewritten post
record carrying neither a non-empty string "userIdStr" nor a numeric
"userId" is dropped entirely: the state (filesystem and user set) is
unchanged — no user id is recorded and the post is not persisted — even
though the fetch succeeded and its trace was emitted. -/
theorem claim_C10 (o : Oracle) (cfg : Config) (st : St) (users : List Str)
    (slug : Str) (raw : JsonMap)
    (hf : o.jsonAt (postURL cfg slug) = some raw)
    (hu : extractUserID (rewriteURLsObj raw) = []) :
    resolveSlug o cfg (st, users) slug =
      ((st, users), [Ev.gate, Ev.http (postURL cfg slug)]) := by
  simp [resolveSlug, fetchJSONMap, hf, hu]

/-- Witness for C10: a post record with only a postIdStr field resolves to
no user and is dropped. -/
theorem claim_C10_witness :
    resolveSlug oC10 cfg0 (⟨fs0, []⟩, []) (sl ("s1")) =
      ((⟨fs0, []⟩, []), [Ev.gate, Ev.http (postURL cfg0 (sl ("s1")))]) :=
  claim_C10 oC10 cfg0 ⟨fs0, []⟩ [] (sl ("s1"))
    [(sl ("postIdStr"), Json.str (sl ("5")))] rfl rfl

/-- C3: rewriteURLs is idempotent on every JSON-shaped value; it preserves
the container structure exactly (null, booleans and numbers unchanged,
arrays element-wise, objects value-wise with every key kept); a string
leaf differs from its input only if it contains one of the four configured
legacy host substrings; and on any string containing one of them the
result is exactly the four ReplaceAll substitutions with the rest of the
string preserved. -/
theorem claim_C3 :
    (∀ t : Json, rewriteURLs (rewriteURLs t) = rewriteURLs t) ∧
    rewriteURLs .null = .null ∧
    (∀ b, rewriteURLs (.bool b) = .bool b) ∧
    (∀ n, rewriteURLs (.num n) = .num n) ∧
    (∀ s, rewriteURLs (.str s) = .str (rewriteString s)) ∧
    (∀ xs, rewriteURLs (.arr xs) = .arr (xs.map rewriteURLs)) ∧
    (∀ fields, rewriteURLs (.obj fields) =
      .obj (fields.map (fun kv => (kv.1, rewriteURLs kv.2)))) ∧
    (∀ s : Str, rewriteString s ≠ s →
      pat1 <:+: s ∨ pat2 <:+: s ∨ pat3 <:+: s ∨ pat4 <:+: s) ∧
    (∀ s : Str, (pat1 <:+: s ∨ pat2 <:+: s ∨ pat3 <:+: s ∨ pat4 <:+: s) →
      rewriteString s = rewriteCore s) := by
  refine ⟨rewriteURLs_idem, rfl, fun b => rfl, fun n => rfl, fun s => rfl,
    ?_, ?_, ?_, ?_⟩
  · intro xs
    rw [rewriteURLs, rewriteURLsArr_eq_map]
  · intro fields
    rw [rewriteURLs, rewriteURLsObj_eq_map]
  · intro s
    exact rewriteString_changed_has_pattern
  · intro s
    exact rewriteString_of_pattern

/-- Witness for C3: the bare pattern http://v.cdn.vine.co is changed by the
rewriter, so it must contain one of the legacy patterns (itself). -/
theorem claim_C3_witness :
    rewriteString pat1 ≠ pat1 ∧
    (pat1 <:+: pat1 ∨ pat2 <:+: pat1 ∨ pat3 <:+: pat1 ∨ pat4 <:+: pat1) :=
  ⟨by decide, claim_C3.2.2.2.2.2.2.2.1 pat1 (by decide)⟩

/-- Every character printed by natDecimalGo is a decimal digit. -/
theorem digitChar_isDigit (d : Nat) : (digitChar d).isDigit = true := by
  unfold digitChar
  split <;> decide

theorem natDecimalGo_digits :
    ∀ (fuel n : Nat) (c : Char), c ∈ natDecimalGo fuel n → c.isDigit = true := by
  intro fuel
  induction fuel with
  | zero => intro n c h; cases h
  | succ fuel ih =>
    intro n c h
    rw [natDecimalGo] at h
    by_cases hn : n < 10
    · rw [if_pos hn] at h
      rw [List.mem_singleton.mp h]
      exact digitChar_isDigit n
    · rw [if_neg hn] at h
      rcases List.mem_append.mp h with h2 | h2
      · exact ih _ c h2
      · rw [List.mem_singleton.mp h2]
        exact digitChar_isDigit _

/-- Every character of a %.0f-formatted integer is a digit or the sign. -/
theorem sprintF0_chars (n : Int) :
    ∀ c ∈ sprintF0 n, c = '-' ∨ c.isDigit = true := by
  intro c hc
  unfold sprintF0 at hc
  by_cases hn : n < 0
  · rw [if_pos hn] at hc
    rcases List.mem_cons.mp hc with h | h
    · exact Or.inl h
    · exact Or.inr (natDecimalGo_digits _ _ c h)
  · rw [if_neg hn] at hc
    exact Or.inr (natDecimalGo_digits _ _ c hc)

/-- C5: post-id extraction follows exactly the fallback chain non-empty
string "postIdStr", then numeric "postId" formatted as an integer decimal
string, then the originally requested identifier; user-id extraction
follows the same chain with the empty string instead of a final fallback;
and the numeric formatting yields only a sign and decimal digits — no
exponent marker and no decimal point. -/
theorem claim_C5 :
    (∀ (m : JsonMap) (req s : Str),
      jlookup m (sl ("postIdStr")) = some (.str s) → s ≠ [] →
      extractPostID m req = s) ∧
    (∀ (m : JsonMap) (req : Str) (n : Int),
      ¬(∃ s, jlookup m (sl ("postIdStr")) = some (.str s) ∧ s ≠ []) →
      jlookup m (sl ("postId")) = some (.num n) →
      extractPostID m req = sprintF0 n) ∧
    (∀ (m : JsonMap) (req : Str),
      ¬(∃ s, jlookup m (sl ("postIdStr")) = some (.str s) ∧ s ≠ []) →
      ¬(∃ n, jlookup m (sl ("postId")) = some (.num n)) →
      extractPostID m req = req) ∧
    (∀ (m : JsonMap) (s : Str),
      jlookup m (sl ("userIdStr")) = some (.str s) → s ≠ [] →
      extractUserID m = s) ∧
    (∀ (m : JsonMap) (n : Int),
      ¬(∃ s, jlookup m (sl ("userIdStr")) = some (.str s) ∧ s ≠ []) →
      jlookup m (sl ("userId")) = some (.num n) →
      extractUserID m = sprintF0 n) ∧
    (∀ m : JsonMap,
      ¬(∃ s, jlookup m (sl ("userIdStr")) = some (.str s) ∧ s ≠ []) →
      ¬(∃ n, jlookup m (sl ("userId")) = some (.num n)) →
      extractUserID m = []) ∧
    (∀ (n : Int), ∀ c ∈ sprintF0 n, c ≠ 'e' ∧ c ≠ 'E' ∧ c ≠ '.') := by
  refine ⟨?_, ?_, ?_, ?_, ?_, ?_, ?_⟩
  · intro m req s hl hs
    simp [extractPostID, hl, hs]
  · intro m req n hne hl
    rw [extractPostID]
    cases hl1 : jlookup m (sl ("postIdStr")) with
    | none => simp [extractPostIDNum, hl]
    | some v =>
      cases v with
      | str s =>
        have hs : s = [] := by
          by_contra hs
          exact hne ⟨s, hl1, hs⟩
        simp [hs, extractPostIDNum, hl]
      | null => simp [extractPostIDNum, hl]
      | bool b => simp [extractPostIDNum, hl]
      | num n2 => simp [extractPostIDNum, hl]
      | arr xs => simp [extractPostIDNum, hl]
      | obj t => simp [extractPostIDNum, hl]
  · intro m req hne hnn
    rw [extractPostID]
    have hnum : extractPostIDNum m req = req := by
      rw [extractPostIDNum]
      cases hl : jlookup m (sl ("postId")) with
      | none => rfl
      | some v =>
        cases v with
        | num n2 => exact absurd ⟨n2, hl⟩ hnn
        | null => rfl
        | bool b => rfl
        | str s => rfl
        | arr xs => rfl
        | obj t => rfl
    cases hl1 : jlookup m (sl ("postIdStr")) with
    | none => simpa using hnum
    | some v =>
      cases v with
      | str s =>
        have hs : s = [] := by
          by_contra hs
          exact hne ⟨s, hl1, hs⟩
        simpa [hs] using hnum
      | null => simpa using hnum
      | bool b => simpa using hnum
      | num n2 => simpa using hnum
      | arr xs => simpa using hnum
      | obj t => simpa using hnum
  · intro m s hl hs
    simp [extractUserID, hl, hs]
  · intro m n hne hl
    rw [extractUserID]
    cases hl1 : jlookup m (sl ("userIdStr")) with
    | none => simp [extractUserIDNum, hl]
    | some v =>
      cases v with
      | str s =>
        have hs : s = [] := by
          by_contra hs
          exact hne ⟨s, hl1, hs⟩
        simp [hs, extractUserIDNum, hl]
      | null => simp [extractUserIDNum, hl]
      | bool b => simp [extractUserIDNum, hl]
      | num n2 => simp [extractUserIDNum, hl]
      | arr xs => simp [extractUserIDNum, hl]
      | obj t => simp [extractUserIDNum, hl]
  · intro m hne hnn
    rw [extractUserID]
    have hnum : extractUserIDNum m = [] := by
      rw [extractUserIDNum]
      cases hl : jlookup m (sl ("userId")) with
      | none => rfl
      | some v =>
        cases v with
        | num n2 => exact absurd ⟨n2, hl⟩ hnn
        | null => rfl
        | bool b => rfl
        | str s => rfl
        | arr xs => rfl
        | obj t => rfl
    cases hl1 : jlookup m (sl ("userIdStr")) with
    | none => simpa using hnum
    | some v =>
      cases v with
      | str s =>
        have hs : s = [] := by
          by_contra hs
          exact hne ⟨s, hl1, hs⟩
        simpa [hs] using hnum
      | null => simpa using hnum
      | bool b => simpa using hnum
      | num n2 => simpa using hnum
      | arr xs => simpa using hnum
      | obj t => simpa using hnum
  · intro n c hc
    rcases sprintF0_chars n c hc with h | h
    · subst h
      refine ⟨by decide, by decide, by decide⟩
    · refine ⟨?_, ?_, ?_⟩ <;>
        (intro he; rw [he] at h; exact absurd h (by decide))

/-- Witness for C5: a record with an empty postIdStr and a numeric postId
falls through to the numeric branch. -/
theorem claim_C5_witness :
    extractPostID [(sl ("postIdStr"), Json.str []),
      (sl ("postId"), Json.num 42)] (sl ("s1")) = sprintF0 42 :=
  claim_C5.2.1 [(sl ("postIdStr"), Json.str []), (sl ("postId"), Json.num 42)]
    (sl ("s1")) 42 (by rintro ⟨s, hs, hne⟩; cases hs; exact hne rfl) rfl

/-- Phase 1 of collectPostIDsFromProfile as an addID fold over the raw ids
of the posts field. -/
theorem collectFromPostsField_eq_fold (profile : JsonMap) :
    collectFromPostsField profile = (postsFieldRaw profile).foldl addID [] := by
  cases hl : jlookup profile (sl ("posts")) with
  | none => simp [collectFromPostsField, postsFieldRaw, hl]
  | some v =>
    cases v with
    | arr items =>
      simp [collectFromPostsField, postsFieldRaw, hl, foldl_postsFieldStep_eq]
    | null => simp [collectFromPostsField, postsFieldRaw, hl]
    | bool b => simp [collectFromPostsField, postsFieldRaw, hl]
    | num n => simp [collectFromPostsField, postsFieldRaw, hl]
    | str s => simp [collectFromPostsField, postsFieldRaw, hl]
    | obj t => simp [collectFromPostsField, postsFieldRaw, hl]

/-- C6: the post-id list of a profile comes from the explicit "posts"
field when it yields at least one id (after trimming, dropping empties
and de-duplicating in first-seen order), and otherwise from the recursive
depth-first scan for keys matching postId/postIdStr case-insensitively,
cleaned the same way; the result is duplicate-free and every entry is
non-empty and trimmed. -/
theorem claim_C6 (profile : JsonMap) :
    (collectPostIDsFromProfile profile =
      if firstSeenFrom [] (cleanList (postsFieldRaw profile)) = [] then
        firstSeenFrom [] (cleanList (walkRaw (.obj profile)))
      else firstSeenFrom [] (cleanList (postsFieldRaw profile))) ∧
    (collectPostIDsFromProfile profile).Nodup ∧
    (∀ x ∈ collectPostIDsFromProfile profile, x ≠ [] ∧ goTrimSpace x = x) := by
  have h1 : collectFromPostsField profile =
      firstSeenFrom [] (cleanList (postsFieldRaw profile)) := by
    rw [collectFromPostsField_eq_fold, foldl_addID_eq]
    simp
  have h2 : walkIDs [] (.obj profile) =
      firstSeenFrom [] (cleanList (walkRaw (.obj profile))) := by
    rw [walkIDs_eq, foldl_addID_eq]
    simp
  have hdef : collectPostIDsFromProfile profile =
      if collectFromPostsField profile = [] then walkIDs [] (Json.obj profile)
      else collectFromPostsField profile := rfl
  have hfold : ∃ l : List Str,
      collectPostIDsFromProfile profile = l.foldl addID [] := by
    rw [hdef]
    by_cases hz : collectFromPostsField profile = []
    · rw [if_pos hz]
      exact ⟨walkRaw (.obj profile), walkIDs_eq _ _⟩
    · rw [if_neg hz]
      exact ⟨postsFieldRaw profile, collectFromPostsField_eq_fold profile⟩
  refine ⟨?_, ?_, ?_⟩
  · rw [hdef, h1, h2]
  · obtain ⟨l, hl⟩ := hfold
    rw [hl]
    exact (foldl_addID_invariant l [] List.nodup_nil (by simp)).1
  · obtain ⟨l, hl⟩ := hfold
    rw [hl]
    exact (foldl_addID_invariant l [] List.nodup_nil (by simp)).2

/-- Witness for C6 at a profile whose posts field holds a duplicate and a
whitespace-only entry. -/
theorem claim_C6_witness :
    collectPostIDsFromProfile
        [(sl ("posts"), Json.arr [Json.str (sl ("5")), Json.str (sl ("5")),
          Json.str (sl (" "))])] = [sl ("5")] ∧
    (sl ("5") ≠ [] ∧ goTrimSpace (sl ("5")) = sl ("5")) :=
  ⟨rfl, (claim_C6 [(sl ("posts"), Json.arr [Json.str (sl ("5")),
    Json.str (sl ("5")), Json.str (sl (" "))])]).2.2 (sl ("5")) (by decide)⟩

/-- C7: a persisted file is written atomically: the bytes go to a
temporary path beside the destination and reach the destination only
through the final rename, so every intermediate state of the write shows
the destination either absent or fully formed; a write that fails at any
step leaves the destination absent; a successful write ends with the full
document at the destination. -/
theorem claim_C7 (fs : FS) (path : Str) (full : FileContent)
    (w : WriteOutcome) (hdest : fs path = none) :
    (∀ s ∈ atomicWriteStates fs path full w,
      s path = none ∨ s path = some full) ∧
    (writeSucceeded w = false →
      ∀ s ∈ atomicWriteStates fs path full w, s path = none) ∧
    (writeSucceeded w = true →
      ∃ final, (atomicWriteStates fs path full w).getLast? = some final ∧
        final path = some full) := by
  have htmp : path ≠ tmpPath path := tmpPath_ne path
  cases w with
  | createFail =>
    refine ⟨?_, ?_, ?_⟩
    · intro s hs
      simp only [atomicWriteStates, List.mem_singleton] at hs
      rw [hs]
      exact Or.inl hdest
    · intro _ s hs
      simp only [atomicWriteStates, List.mem_singleton] at hs
      rw [hs]
      exact hdest
    · intro h
      cases h
  | encodeFail part =>
    have hmid : setFile fs (tmpPath path) (.bytes part) path = none := by
      rw [setFile_other fs _ htmp]
      exact hdest
    refine ⟨?_, ?_, ?_⟩
    · intro s hs
      simp only [atomicWriteStates, List.mem_cons, List.mem_singleton,
        List.not_mem_nil, or_false] at hs
      rcases hs with hs | hs <;> rw [hs]
      · exact Or.inl hdest
      · exact Or.inl hmid
    · intro _ s hs
      simp only [atomicWriteStates, List.mem_cons, List.mem_singleton,
        List.not_mem_nil, or_false] at hs
      rcases hs with hs | hs <;> rw [hs]
      · exact hdest
      · exact hmid
    · intro h
      cases h
  | closeFail =>
    have hmid : setFile fs (tmpPath path) full path = none := by
      rw [setFile_other fs _ htmp]
      exact hdest
    refine ⟨?_, ?_, ?_⟩
    · intro s hs
      simp only [atomicWriteStates, List.mem_cons, List.mem_singleton,
        List.not_mem_nil, or_false] at hs
      rcases hs with hs | hs <;> rw [hs]
      · exact Or.inl hdest
      · exact Or.inl hmid
    · intro _ s hs
      simp only [atomicWriteStates, List.mem_cons, List.mem_singleton,
        List.not_mem_nil, or_false] at hs
      rcases hs with hs | hs <;> rw [hs]
      · exact hdest
      · exact hmid
    · intro h
      cases h
  | ok =>
    have hmid : setFile fs (tmpPath path) full path = none := by
      rw [setFile_other fs _ htmp]
      exact hdest
    have hfin : renameFile (setFile fs (tmpPath path) full) (tmpPath path)
        path path = some full := by
      unfold renameFile
      rw [if_pos rfl, setFile_self]
    refine ⟨?_, ?_, ?_⟩
    · intro s hs
      simp only [atomicWriteStates, List.mem_cons, List.mem_singleton,
        List.not_mem_nil, or_false] at hs
      rcases hs with hs | hs | hs <;> rw [hs]
      · exact Or.inl hdest
      · exact Or.inl hmid
      · exact Or.inr hfin
    · intro h
      cases h
    · intro _
      exact ⟨_, rfl, hfin⟩

/-- Witness for C7: a successful write of a null document to an absent
path ends with the document at the path. -/
theorem claim_C7_witness :
    fs0 (sl ("x.json")) = none ∧
    ∃ final,
      (atomicWriteStates fs0 (sl ("x.json")) (.json .null) .ok).getLast? =
        some final ∧ final (sl ("x.json")) = some (.json .null) :=
  ⟨rfl, (claim_C7 fs0 (sl ("x.json")) (.json .null) .ok rfl).2.2 rfl⟩

/-- C8 counterexample: a corpus whose first line has exactly
bufio.MaxScanTokenSize characters makes the default scanner stop before
that line, so the vine URL on the following line of the same source is
never collected — lines are not processed regardless of length. -/
theorem claim_C8_counterexample :
    collectVineSlugs
        [[List.replicate maxScanTokenSize 'a', sl ("vine.co/v/abc")]] = [] ∧
    findSlugs (sl ("vine.co/v/abc")) = [sl ("abc")] := by
  constructor
  · have hlen : maxScanTokenSize ≤ (List.replicate maxScanTokenSize 'a').length := by
      simp
    have h1 : scanLines maxScanTokenSize
        [List.replicate maxScanTokenSize 'a', sl ("vine.co/v/abc")] = [] := by
      rw [scanLines, if_pos hlen]
    simp [collectVineSlugs, h1]
  · rfl

/-- C8 (amended): the scanner processes the lines of a source in order
only up to (but not including) the first line whose length reaches the
scanner's buffer cap — 64 KiB by default in collectVineSlugs, 10 MiB in
extractVineSlugs — silently dropping that line and the remainder of the
source; when every line is below the cap, every line is processed. -/
theorem claim_C8 :
    (∀ (maxTok : Nat) (lines : List Str),
      scanLines maxTok lines =
        lines.takeWhile (fun l => decide (l.length < maxTok))) ∧
    (∀ (maxTok : Nat) (lines : List Str),
      (∀ l ∈ lines, l.length < maxTok) → scanLines maxTok lines = lines) := by
  have h1 : ∀ (maxTok : Nat) (lines : List Str),
      scanLines maxTok lines =
        lines.takeWhile (fun l => decide (l.length < maxTok)) := by
    intro maxTok lines
    induction lines with
    | nil => rfl
    | cons l rest ih =>
      rw [scanLines, List.takeWhile_cons]
      by_cases hl : maxTok ≤ l.length
      · rw [if_pos hl]
        have hd : decide (l.length < maxTok) = false := by
          simp
          omega
        rw [hd]
        simp
      · rw [if_neg hl]
        have hd : decide (l.length < maxTok) = true := by
          simp
          omega
        rw [hd]
        simp [ih]
  refine ⟨h1, ?_⟩
  intro maxTok lines hall
  rw [h1]
  induction lines with
  | nil => rfl
  | cons l rest ih =>
    rw [List.takeWhile_cons]
    have hd : decide (l.length < maxTok) = true := by
      simp
      exact hall l (by simp)
    rw [hd]
    simp only [if_true]
    rw [ih (fun x hx => hall x (by simp [hx]))]

/-- Witness for C8 (amended): a short line is processed. -/
theorem claim_C8_witness :
    scanLines maxScanTokenSize [sl ("hello")] = [sl ("hello")] :=
  claim_C8.2 maxScanTokenSize [sl ("hello")]
    (by intro l hl; rw [List.mem_singleton.mp hl]; decide)

/-- The media loop requests each URL at most once (not at all when the URL
is already in the run-scoped set). -/
theorem mediaLoop_count (o : Oracle) (cfg : Config) (u : Str) :
    ∀ (urls : List Str) (st : St),
      ((mediaLoop o cfg urls st).2.count (Ev.http u)) ≤
        (if u ∈ st.media then 0 else 1) := by
  intro urls
  induction urls with
  | nil =>
    intro st
    simp [mediaLoop]
  | cons u2 rest ih =>
    intro st
    rw [mediaLoop]
    simp only [List.count_append]
    by_cases h1 : u2 ∈ st.media
    · have hdm : downloadMedia o cfg u2 st = (st, []) := by
        simp [downloadMedia, h1]
      rw [hdm]
      simpa using ih st
    · by_cases h2 : fileExists st.fs (mediaFilePath cfg (trimLeftSlashes (urlPath u2)))
      · have hdm : downloadMedia o cfg u2 st =
            ({ st with media := st.media ++ [u2] }, []) := by
          simp [downloadMedia, h1, h2]
        rw [hdm]
        have hb := ih { st with media := st.media ++ [u2] }
        simp only [List.count_nil, Nat.zero_add]
        by_cases hu : u ∈ st.media
        · have hm2 : u ∈ st.media ++ [u2] := by simp [hu]
          rw [if_pos hu]
          rw [if_pos hm2] at hb
          exact hb
        · rw [if_neg hu]
          refine le_trans hb ?_
          split <;> omega
      · have hdm : (downloadMedia o cfg u2 st).2 = [Ev.http u2] ∧
            (downloadMedia o cfg u2 st).1.media = st.media ++ [u2] := by
          cases hbyt : o.bytesAt u2 with
          | none => simp [downloadMedia, h1, h2, hbyt]
          | some b => simp [downloadMedia, h1, h2, hbyt]
        rw [hdm.1]
        have hb := ih (downloadMedia o cfg u2 st).1
        rw [hdm.2] at hb
        by_cases huu : u = u2
        · subst huu
          have hc1 : List.count (Ev.http u) [Ev.http u] = 1 := by
            simp
          rw [hc1]
          have hm2 : u ∈ st.media ++ [u] := by simp
          rw [if_pos hm2] at hb
          rw [if_neg h1]
          omega
        · have hne : (Ev.http u2 == Ev.http u) = false := by
            rw [beq_eq_false_iff_ne]
            exact fun h => huu (Ev.http.inj h).symm
          have hc0 : List.count (Ev.http u) [Ev.http u2] = 0 := by
            simp [List.count_cons, hne]
          rw [hc0]
          by_cases hu : u ∈ st.media
          · have hm2 : u ∈ st.media ++ [u2] := by simp [hu]
            rw [if_pos hu]
            rw [if_pos hm2] at hb
            omega
          · rw [if_neg hu]
            have hb2 : List.count (Ev.http u)
                (mediaLoop o cfg rest (downloadMedia o cfg u2 st).1).2 ≤ 1 := by
              refine le_trans hb ?_
              split <;> omega
            omega

/-- C9: within a single run each distinct media URL is fetched at most
once even across workers: downloadMedia checks-and-inserts the URL into
the run-scoped downloadedMedia set before any network or file activity
(returning at once when it is already present, or when its destination
file exists), the URL is in the set after any call, and over any sequence
of downloads the URL's request is issued at most once — not at all when
it was already recorded. -/
theorem claim_C9 :
    (∀ (o : Oracle) (cfg : Config) (u : Str) (st : St),
      u ∈ st.media → downloadMedia o cfg u st = (st, [])) ∧
    (∀ (o : Oracle) (cfg : Config) (u : Str) (st : St),
      u ∉ st.media →
      fileExists st.fs (mediaFilePath cfg (trimLeftSlashes (urlPath u))) = true →
      downloadMedia o cfg u st = ({ st with media := st.media ++ [u] }, [])) ∧
    (∀ (o : Oracle) (cfg : Config) (u : Str) (st : St),
      u ∈ (downloadMedia o cfg u st).1.media) ∧
    (∀ (o : Oracle) (cfg : Config) (u : Str) (urls : List Str) (st : St),
      ((mediaLoop o cfg urls st).2.count (Ev.http u)) ≤
        (if u ∈ st.media then 0 else 1)) := by
  refine ⟨?_, ?_, ?_, ?_⟩
  · intro o cfg u st h
    simp [downloadMedia, h]
  · intro o cfg u st h1 h2
    simp [downloadMedia, h1, h2]
  · intro o cfg u st
    by_cases h1 : u ∈ st.media
    · simp [downloadMedia, h1]
    · by_cases h2 : fileExists st.fs (mediaFilePath cfg (trimLeftSlashes (urlPath u)))
      · simp [downloadMedia, h1, h2]
      · cases hbyt : o.bytesAt u with
        | none => simp [downloadMedia, h1, h2, hbyt]
        | some b => simp [downloadMedia, h1, h2, hbyt]
  · intro o cfg u urls st
    exact mediaLoop_count o cfg u urls st

/-- Witness for C9: a URL already in the run-scoped set is returned
immediately with no events. -/
theorem claim_C9_witness :
    downloadMedia oM cfg0 u0 ⟨fs0, [u0]⟩ = (⟨fs0, [u0]⟩, []) :=
  claim_C9.1 oM cfg0 u0 ⟨fs0, [u0]⟩ (by simp)

end Viner

